import Mathlib

/-!
Verification of the bit-packed board representation and the bulk algorithms
of a peg-solitaire solver.  A board is the packed 64-bit word of the code,
modelled as a `Nat` (every operation keeps its value below `2 ^ 64`);
coordinates are pairs of `Int`, mirroring the `i64` index type of the code.
-/

namespace Solitaire

/-- The all-ones 64-bit word; bitwise complement `!x` on a `u64` is modelled
as `u64Mask ^^^ x`. -/
def u64Mask : Nat := 2 ^ 64 - 1

/-- Bit index of cell `(y, x)`: `y * 8 + x` (row stride `Board::REPR = 8`).
The code only evaluates this under bounds guards, where `Int.toNat` is
exact. -/
def bitIdx (p : Int × Int) : Nat := (p.1 * 8 + p.2).toNat

/-- `Board::full()`: the word with exactly the 33 playable cells set. -/
def full : Nat :=
  (0x7 <<< 2) ||| (0x7 <<< 10) ||| (0x7f <<< 16) ||| (0x7f <<< 24) |||
    (0x7f <<< 32) ||| (0x7 <<< 42) ||| (0x7 <<< 50)

/-- `Board::to_compressed_repr` (portable path; the `pext` path extracts the
same bits against the same mask): pack the 33 playable bits contiguously. -/
def toCompressedRepr (b : Nat) : Nat :=
  (b &&& (0x7 <<< 2)) >>> 2 |||
    (b &&& (0x7 <<< 10)) >>> 7 |||
    (b &&& (0x7f <<< 16)) >>> 10 |||
    (b &&& (0x7f <<< 24)) >>> 11 |||
    (b &&& (0x7f <<< 32)) >>> 12 |||
    (b &&& (0x7 <<< 42)) >>> 15 |||
    (b &&& (0x7 <<< 50)) >>> 20

/-- `Board::from_compressed_repr`: unpack a 33-bit value onto the grid. -/
def fromCompressedRepr (c : Nat) : Nat :=
  (c &&& 0x7) <<< 2 |||
    (c &&& (0x7 <<< 3)) <<< 7 |||
    (c &&& (0x7f <<< 6)) <<< 10 |||
    (c &&& (0x7f <<< 13)) <<< 11 |||
    (c &&& (0x7f <<< 20)) <<< 12 |||
    (c &&& (0x7 <<< 27)) <<< 15 |||
    (c &&& (0x7 <<< 30)) <<< 20

lemma shiftLeft_le_shiftLeft {a m : Nat} (s : Nat) (h : a ≤ m) :
    a <<< s ≤ m <<< s := by
  simpa [Nat.shiftLeft_eq] using Nat.mul_le_mul_right (2 ^ s) h

lemma fromCompressedRepr_lt (c : Nat) : fromCompressedRepr c < 2 ^ 53 := by
  have bound : ∀ m s : Nat, m <<< s < 2 ^ 53 → (c &&& m) <<< s < 2 ^ 53 :=
    fun m s h => Nat.lt_of_le_of_lt (shiftLeft_le_shiftLeft s Nat.and_le_right) h
  refine Nat.or_lt_two_pow ?_ (bound _ _ (by decide))
  refine Nat.or_lt_two_pow ?_ (bound _ _ (by decide))
  refine Nat.or_lt_two_pow ?_ (bound _ _ (by decide))
  refine Nat.or_lt_two_pow ?_ (bound _ _ (by decide))
  refine Nat.or_lt_two_pow ?_ (bound _ _ (by decide))
  exact Nat.or_lt_two_pow (bound _ _ (by decide)) (bound _ _ (by decide))

lemma full_lt : full < 2 ^ 53 := by decide

set_option maxRecDepth 8000 in
set_option maxHeartbeats 2000000 in
/-- Round trip through the 33-bit packing recovers exactly the playable bits. -/
lemma from_to_compressed (b : Nat) :
    fromCompressedRepr (toCompressedRepr b) = b &&& full := by
  apply Nat.eq_of_testBit_eq
  intro i
  rcases Nat.lt_or_ge i 53 with hi | hi
  · interval_cases i <;>
    · simp only [fromCompressedRepr, toCompressedRepr, full, Nat.testBit_or,
        Nat.testBit_and, Nat.testBit_shiftLeft, Nat.testBit_shiftRight]
      simp [Nat.testBit_to_div_mod]
  · rw [Nat.testBit_lt_two_pow
        (Nat.lt_of_lt_of_le (fromCompressedRepr_lt _) (Nat.pow_le_pow_right (by norm_num) hi)),
      Nat.testBit_lt_two_pow
        (Nat.lt_of_lt_of_le (Nat.and_lt_two_pow b full_lt) (Nat.pow_le_pow_right (by norm_num) hi))]

/-- The four cardinal directions (`Dir`). -/
inductive Dir where
  | north
  | east
  | south
  | west
deriving DecidableEq, Fintype

/-- `Dir::enumerate()`, in source order. -/
def Dir.enumerate : List Dir := [.north, .east, .south, .west]

/-- `Dir::mov(pos)`: the `(skip, target)` coordinates of a jump from `pos`. -/
def Dir.mov (d : Dir) (pos : Int × Int) : (Int × Int) × (Int × Int) :=
  match d with
  | .north => ((pos.1 - 1, pos.2), (pos.1 - 2, pos.2))
  | .south => ((pos.1 + 1, pos.2), (pos.1 + 2, pos.2))
  | .west => ((pos.1, pos.2 - 1), (pos.1, pos.2 - 2))
  | .east => ((pos.1, pos.2 + 1), (pos.1, pos.2 + 2))

/-- `Move`: origin, jumped-over cell and destination coordinates. -/
structure Move where
  pos : Int × Int
  skip : Int × Int
  target : Int × Int
deriving DecidableEq

/-- `Move::default()` (all coordinates zero). -/
instance : Inhabited Move := ⟨⟨(0, 0), (0, 0), (0, 0)⟩⟩

/-- `Move::dir`: direction inferred from the origin/skip pair. -/
def Move.dir (m : Move) : Dir :=
  if m.pos.1 < m.skip.1 then .south
  else if m.pos.1 > m.skip.1 then .north
  else if m.pos.2 < m.skip.2 then .east
  else .west

/-- `Board::empty()`. -/
def empty : Nat := 0

/-- `Board::occupied((y, x))`: read bit `y * 8 + x`. -/
def occupied (b : Nat) (p : Int × Int) : Bool := b.testBit (bitIdx p)

/-- `Board::set((y, x))`. -/
def set (b : Nat) (p : Int × Int) : Nat := b ||| (1 <<< bitIdx p)

/-- `Board::unset((y, x))`; `!mask` on `u64` is `u64Mask ^^^ mask`. -/
def unset (b : Nat) (p : Int × Int) : Nat := b &&& (u64Mask ^^^ (1 <<< bitIdx p))

/-- `Board::solved()`: only the centre cell occupied. -/
def solved : Nat := set empty (3, 3)

/-- `Board::default()`: all cells occupied except the centre. -/
def defaultBoard : Nat := unset full (3, 3)

/-- `Board::inbounds((y, x))`: inside the 7 by 7 square and on the cross. -/
def inbounds (p : Int × Int) : Bool :=
  decide (0 ≤ p.1) && decide (p.1 < 7) && decide (0 ≤ p.2) && decide (p.2 < 7) &&
    decide (set empty p &&& full ≠ 0)

/-- `Board::mov(m)`: clear origin and skip, fill target. -/
def mov (b : Nat) (m : Move) : Nat := set (unset (unset b m.pos) m.skip) m.target

/-- `Board::reverse_mov(m)`: fill origin and skip, clear target. -/
def reverse_mov (b : Nat) (m : Move) : Nat := unset (set (set b m.pos) m.skip) m.target

/-- `Board::get_legal_move((y, x), dir)`. -/
def get_legal_move (b : Nat) (pos : Int × Int) (dir : Dir) : Option Move :=
  let st := dir.mov pos
  if inbounds st.2 && occupied b st.1 && !occupied b st.2 then
    some ⟨pos, st.1, st.2⟩
  else
    none

/-- `Board::get_legal_inverse_move((y, x), dir)`. -/
def get_legal_inverse_move (b : Nat) (target : Int × Int) (dir : Dir) : Option Move :=
  let sp := dir.mov target
  if inbounds sp.2 && !occupied b sp.1 && !occupied b sp.2 then
    some ⟨sp.2, sp.1, target⟩
  else
    none

/-- Cell of bit index `i`: `(i / 8, i % 8)` as `i64` values. -/
def cellOf (i : Nat) : Int × Int := ((i : Int) / 8, (i : Int) % 8)

/-- `Board::get_legal_moves()`: for every set bit (ascending, as the
trailing-zero loop enumerates them) try all four directions. -/
def get_legal_moves (b : Nat) : List Move :=
  ((List.range 64).filter (fun i => b.testBit i)).flatMap
    (fun i => Dir.enumerate.filterMap (fun d => get_legal_move b (cellOf i) d))

/-- `Board::get_legal_inverse_moves()`. -/
def get_legal_inverse_moves (b : Nat) : List Move :=
  ((List.range 64).filter (fun i => b.testBit i)).flatMap
    (fun i => Dir.enumerate.filterMap (fun d => get_legal_inverse_move b (cellOf i) d))

/-- C2, as stated by the spec: `get_legal_move` answers `some` exactly when
the origin and skip cells are occupied and the target is empty and in
bounds. -/
def c2Claim : Prop :=
  ∀ (b : Nat) (p : Int × Int) (d : Dir), inbounds p = true →
    ((get_legal_move b p d).isSome = true ↔
      occupied b p = true ∧ occupied b (d.mov p).1 = true ∧
        occupied b (d.mov p).2 = false ∧ inbounds (d.mov p).2 = true)

/-- C2 counterexample: on the goal board `solved()`, the empty cell `(3,2)`
still yields a move east (the code never checks that the origin is
occupied), refuting the claim as stated. -/
theorem c2_counterexample : ¬ c2Claim := by
  intro h
  have hsome : (get_legal_move solved (3, 2) Dir.east).isSome = true := by decide
  have hocc := ((h solved (3, 2) Dir.east (by decide)).mp hsome).1
  exact absurd hocc (by decide)

/-- C2 amended: for an in-bounds origin `p`, `get_legal_move` returns the
move `(p, skip, target)` exactly when the skip cell is occupied and the
target cell is empty and in bounds (the origin's own occupancy is not
checked), and returns nothing otherwise. -/
theorem c2_get_legal_move_spec (b : Nat) (p : Int × Int) (d : Dir)
    (h : inbounds p = true) :
    (get_legal_move b p d = some ⟨p, (d.mov p).1, (d.mov p).2⟩ ↔
      occupied b (d.mov p).1 = true ∧ occupied b (d.mov p).2 = false ∧
        inbounds (d.mov p).2 = true) ∧
    (get_legal_move b p d = none ↔
      ¬ (occupied b (d.mov p).1 = true ∧ occupied b (d.mov p).2 = false ∧
        inbounds (d.mov p).2 = true)) := by
  unfold get_legal_move
  by_cases hc :
      (inbounds (d.mov p).2 && occupied b (d.mov p).1 && !occupied b (d.mov p).2) = true
  · rw [if_pos hc]
    rcases Bool.and_eq_true_iff.mp hc with ⟨hc1, hc3⟩
    rcases Bool.and_eq_true_iff.mp hc1 with ⟨hin, hskip⟩
    have htarget : occupied b (d.mov p).2 = false := by
      cases hb : occupied b (d.mov p).2 <;> simp [hb] at hc3 ⊢
    refine ⟨⟨fun _ => ⟨hskip, htarget, hin⟩, fun _ => rfl⟩, ?_, ?_⟩
    · intro hnone
      exact absurd hnone (by simp)
    · intro hno
      exact absurd ⟨hskip, htarget, hin⟩ hno
  · rw [if_neg hc]
    have hno : ¬ (occupied b (d.mov p).1 = true ∧ occupied b (d.mov p).2 = false ∧
        inbounds (d.mov p).2 = true) := by
      rintro ⟨h1, h2, h3⟩
      exact hc (by rw [h3, h1, h2]; rfl)
    exact ⟨by simp [hno], by simp [hno]⟩

/-- C2 witness: the amended characterisation evaluated on the goal board at
origin `(3,2)` looking east. -/
theorem c2_get_legal_move_spec_witness :
    get_legal_move solved (3, 2) Dir.east = some ⟨(3, 2), (3, 3), (3, 4)⟩ :=
  ((c2_get_legal_move_spec solved (3, 2) Dir.east (by decide)).1).mpr (by decide)

lemma and_full_trans {a b F : Nat} (hab : a &&& b = a) (hbF : b &&& F = b) :
    a &&& F = a := by
  conv_lhs => rw [← hab]
  rw [Nat.and_assoc, hbF, hab]

lemma or_masked {a c F : Nat} (ha : a &&& F = a) (hc : c &&& F = c) :
    (a ||| c) &&& F = a ||| c := by
  rw [Nat.and_distrib_right, ha, hc]

lemma shiftLeft_and_distrib (x y : Nat) (s : Nat) :
    (x &&& y) <<< s = (x <<< s) &&& (y <<< s) := by
  apply Nat.eq_of_testBit_eq
  intro i
  simp only [Nat.testBit_shiftLeft, Nat.testBit_and]
  cases hd : decide (s ≤ i) <;> simp

lemma and_term_masked {u m F : Nat} (s : Nat) (h : (m <<< s) &&& F = m <<< s) :
    ((u &&& m) <<< s) &&& F = (u &&& m) <<< s := by
  refine and_full_trans ?_ h
  rw [← shiftLeft_and_distrib, Nat.and_assoc, Nat.and_self]

lemma fromCompressedRepr_masked (u : Nat) :
    fromCompressedRepr u &&& full = fromCompressedRepr u := by
  unfold fromCompressedRepr
  refine or_masked (or_masked (or_masked (or_masked (or_masked (or_masked ?_
    (and_term_masked _ (by decide))) (and_term_masked _ (by decide)))
    (and_term_masked _ (by decide))) (and_term_masked _ (by decide)))
    (and_term_masked _ (by decide))) (and_term_masked _ (by decide))
  exact and_term_masked _ (by decide)

lemma fromCompressedRepr_low_bits (u : Nat) :
    fromCompressedRepr (u % 2 ^ 33) = fromCompressedRepr u := by
  have key : ∀ m : Nat, m &&& (2 ^ 33 - 1) = m →
      (u &&& (2 ^ 33 - 1)) &&& m = u &&& m := by
    intro m hm
    rw [Nat.and_assoc, Nat.and_comm (2 ^ 33 - 1) m, hm]
  unfold fromCompressedRepr
  rw [← Nat.and_pow_two_sub_one_eq_mod, key 0x7 (by decide), key (0x7 <<< 3) (by decide),
    key (0x7f <<< 6) (by decide), key (0x7f <<< 13) (by decide),
    key (0x7f <<< 20) (by decide), key (0x7 <<< 27) (by decide),
    key (0x7 <<< 30) (by decide)]

/-- C10: unpacking any 64-bit value yields a board with no bits outside the
33-cell mask, and the result only depends on the low 33 bits of the input. -/
theorem c10_from_compressed_masked_low_bits (u : Nat) :
    fromCompressedRepr u &&& full = fromCompressedRepr u ∧
    fromCompressedRepr (u % 2 ^ 33) = fromCompressedRepr u :=
  ⟨fromCompressedRepr_masked u, fromCompressedRepr_low_bits u⟩

lemma masked_of_compl {b : Nat} (hb : b < 2 ^ 64)
    (h : b &&& (u64Mask ^^^ full) = 0) : b &&& full = b := by
  apply Nat.eq_of_testBit_eq
  intro i
  rcases Nat.lt_or_ge i 64 with hi | hi
  · have h0 : (b &&& (u64Mask ^^^ full)).testBit i = false := by rw [h]; simp
    simp only [Nat.testBit_and, Nat.testBit_xor] at h0 ⊢
    have hm : u64Mask.testBit i = true := by
      unfold u64Mask
      rw [Nat.testBit_two_pow_sub_one]
      simp [hi]
    rw [hm] at h0
    cases hb2 : b.testBit i
    · simp
    · rw [hb2] at h0
      simp only [Bool.true_and] at h0 ⊢
      cases hf : full.testBit i
      · rw [hf] at h0; simp at h0
      · rfl
  · have hz : b.testBit i = false :=
      Nat.testBit_lt_two_pow (lt_of_lt_of_le hb (Nat.pow_le_pow_right (by norm_num) hi))
    simp [Nat.testBit_and, hz]

lemma shiftRight_le_shiftRight {a m : Nat} (s : Nat) (h : a ≤ m) :
    a >>> s ≤ m >>> s := by
  simpa [Nat.shiftRight_eq_div_pow] using Nat.div_le_div_right (c := 2 ^ s) h

lemma toCompressedRepr_lt (b : Nat) : toCompressedRepr b < 2 ^ 33 := by
  have bound : ∀ m s : Nat, m >>> s < 2 ^ 33 → (b &&& m) >>> s < 2 ^ 33 :=
    fun m s h => Nat.lt_of_le_of_lt (shiftRight_le_shiftRight s Nat.and_le_right) h
  refine Nat.or_lt_two_pow ?_ (bound _ _ (by decide))
  refine Nat.or_lt_two_pow ?_ (bound _ _ (by decide))
  refine Nat.or_lt_two_pow ?_ (bound _ _ (by decide))
  refine Nat.or_lt_two_pow ?_ (bound _ _ (by decide))
  refine Nat.or_lt_two_pow ?_ (bound _ _ (by decide))
  exact Nat.or_lt_two_pow (bound _ _ (by decide)) (bound _ _ (by decide))

set_option maxRecDepth 8000 in
set_option maxHeartbeats 2000000 in
/-- Packing after unpacking returns exactly the low 33 bits. -/
lemma to_from_compressed (c : Nat) :
    toCompressedRepr (fromCompressedRepr c) = c % 2 ^ 33 := by
  apply Nat.eq_of_testBit_eq
  intro i
  rcases Nat.lt_or_ge i 33 with hi | hi
  · interval_cases i <;>
    · simp only [fromCompressedRepr, toCompressedRepr, Nat.testBit_or,
        Nat.testBit_and, Nat.testBit_shiftLeft, Nat.testBit_shiftRight,
        Nat.testBit_mod_two_pow]
      simp [Nat.testBit_to_div_mod]
  · rw [Nat.testBit_lt_two_pow
        (Nat.lt_of_lt_of_le (toCompressedRepr_lt _) (Nat.pow_le_pow_right (by norm_num) hi)),
      Nat.testBit_lt_two_pow
        (Nat.lt_of_lt_of_le (Nat.mod_lt _ (by norm_num)) (Nat.pow_le_pow_right (by norm_num) hi))]

/-- C4: the 33-bit compression round-trips on boards with no bits outside the
33-cell mask, and the two packing maps are mutually inverse bijections
between legal boards and 33-bit values. -/
theorem c4_compression_roundtrip (b c : Nat) (hb : b < 2 ^ 64)
    (h : b &&& (u64Mask ^^^ full) = 0) (hc : c < 2 ^ 33) :
    fromCompressedRepr (toCompressedRepr b) = b ∧
    toCompressedRepr (fromCompressedRepr c) = c := by
  constructor
  · rw [from_to_compressed, masked_of_compl hb h]
  · rw [to_from_compressed, Nat.mod_eq_of_lt hc]

/-- C4 witness: round trip through the compressed form at the start board. -/
theorem c4_compression_roundtrip_witness :
    fromCompressedRepr (toCompressedRepr defaultBoard) = defaultBoard ∧
    toCompressedRepr (fromCompressedRepr 42) = 42 :=
  c4_compression_roundtrip defaultBoard 42 (by decide) (by decide) (by decide)

/-- Bit reversal helper: `rvb k x` reverses the low `k` bits of `x`. -/
def rvb : Nat → Nat → Nat
  | 0, _ => 0
  | k + 1, x => (x % 2) <<< k ||| rvb k (x / 2)

/-- Model of the `u64::reverse_bits` intrinsic: bit `i` moves to bit `63 - i`. -/
def reverseBits (x : Nat) : Nat := rvb 64 x

/-- Byte reversal helper: `swb k x` reverses the low `k` bytes of `x`. -/
def swb : Nat → Nat → Nat
  | 0, _ => 0
  | k + 1, x => (x % 256) <<< (8 * k) ||| swb k (x / 256)

/-- Model of the `u64::swap_bytes` intrinsic: byte `j` moves to byte `7 - j`. -/
def swapBytes (x : Nat) : Nat := swb 8 x

/-- `Board::reverse_rows()`: byte swap, bit reversal, one-bit realignment. -/
def reverse_rows (b : Nat) : Nat := reverseBits (swapBytes b) >>> 1

/-- `Board::reverse_cols()`: byte swap realigned to row 0. -/
def reverse_cols (b : Nat) : Nat := swapBytes b >>> 8

/-- `Board::rotate_180()`: whole-word bit reversal with a 9-bit realignment. -/
def rotate_180 (b : Nat) : Nat := reverseBits b >>> 9

/-- `Board::transpose()`: the three-pass in-register bit transpose. -/
def transpose (b : Nat) : Nat :=
  let t1 := (b ^^^ (b >>> 7)) &&& 0x00AA00AA00AA00AA
  let x1 := b ^^^ t1 ^^^ (t1 <<< 7)
  let t2 := (x1 ^^^ (x1 >>> 14)) &&& 0x0000CCCC0000CCCC
  let x2 := x1 ^^^ t2 ^^^ (t2 <<< 14)
  let t3 := (x2 ^^^ (x2 >>> 28)) &&& 0x00000000F0F0F0F0
  x2 ^^^ t3 ^^^ (t3 <<< 28)

/-- `Board::symmetries()`, in source order: identity, the three rotations,
the two axis flips and the two diagonal flips. -/
def symmetries (b : Nat) : List Nat :=
  [b, reverse_rows (transpose b), rotate_180 b, reverse_cols (transpose b),
    reverse_cols b, reverse_rows b, rotate_180 (transpose b), transpose b]

/-- `Board::normalize()`: the minimum of the eight symmetry images (the fold
starts from the first image, which is the board itself). -/
def normalize (b : Nat) : Nat :=
  (symmetries b).foldl (fun m x => if x < m then x else m) b

lemma testBit_rvb (k : Nat) : ∀ (x i : Nat),
    (rvb k x).testBit i = (decide (i < k) && x.testBit (k - 1 - i)) := by
  induction k with
  | zero => intro x i; simp [rvb]
  | succ k ih =>
    intro x i
    have hx2 : ∀ j, (x % 2).testBit j = (decide (j < 1) && x.testBit j) := by
      intro j
      rw [show x % 2 = x % 2 ^ 1 by norm_num, Nat.testBit_mod_two_pow]
    simp only [rvb, Nat.testBit_or, Nat.testBit_shiftLeft, ih, hx2,
      Nat.testBit_div_two]
    rcases Nat.lt_trichotomy i k with h | h | h
    · have h1 : ¬ (k ≤ i) := by omega
      have h2 : k - 1 - i + 1 = k + 1 - 1 - i := by omega
      simp [h1, h, Nat.lt_succ_of_lt h, h2]
    · subst h
      simp [Nat.lt_irrefl, Nat.lt_succ_self]
    · have h1 : ¬ (i < k) := by omega
      have h2 : ¬ (i < k + 1) := by omega
      rcases Nat.lt_or_ge (i - k) 1 with h3 | h3
      · omega
      · simp [h1, h2, Nat.not_lt.mp, show ¬ (i - k < 1) by omega]

lemma rvb_lt (k : Nat) : ∀ x : Nat, rvb k x < 2 ^ k := by
  induction k with
  | zero => intro x; simp [rvb]
  | succ k ih =>
    intro x
    refine Nat.or_lt_two_pow ?_ (Nat.lt_of_lt_of_le (ih _) ?_)
    · rw [Nat.shiftLeft_eq, Nat.pow_succ, Nat.mul_comm (2 ^ k) 2]
      exact Nat.mul_lt_mul_of_lt_of_le (Nat.mod_lt _ (by norm_num)) (Nat.le_refl _)
        (by positivity)
    · exact Nat.pow_le_pow_right (by norm_num) (Nat.le_succ k)

lemma testBit_swb (k : Nat) : ∀ (x i : Nat),
    (swb k x).testBit i =
      (decide (i < 8 * k) && x.testBit (8 * (k - 1 - i / 8) + i % 8)) := by
  induction k with
  | zero => intro x i; simp [swb]
  | succ k ih =>
    intro x i
    have hx2 : ∀ j, (x % 256).testBit j = (decide (j < 8) && x.testBit j) := by
      intro j
      rw [show x % 256 = x % 2 ^ 8 by norm_num, Nat.testBit_mod_two_pow]
    have hdiv : ∀ j, (x / 256).testBit j = x.testBit (8 + j) := by
      intro j
      rw [show x / 256 = x >>> 8 by simp [Nat.shiftRight_eq_div_pow],
        Nat.testBit_shiftRight]
    simp only [swb, Nat.testBit_or, Nat.testBit_shiftLeft, ih, hx2, hdiv]
    rcases Nat.lt_or_ge i (8 * k) with h | h
    · have h1 : ¬ (8 * k ≤ i) := by omega
      have h2 : 8 + (8 * (k - 1 - i / 8) + i % 8) = 8 * (k + 1 - 1 - i / 8) + i % 8 := by
        omega
      simp [h1, h, show i < 8 * (k + 1) by omega, h2]
    · rcases Nat.lt_or_ge i (8 * (k + 1)) with h3 | h3
      · have h1 : i / 8 = k := by omega
        have h2 : i - 8 * k = i % 8 := by omega
        have h4 : ¬ (i < 8 * k) := by omega
        simp [Nat.le_of_lt_succ, h, h1, h2, h3, h4, show i - 8 * k < 8 by omega]
        intro
        omega
      · have h4 : ¬ (i < 8 * k) := by omega
        simp [h3, h4, show ¬ (i - 8 * k < 8) by omega]

lemma swb_lt (k : Nat) : ∀ x : Nat, swb k x < 2 ^ (8 * k) := by
  induction k with
  | zero => intro x; simp [swb]
  | succ k ih =>
    intro x
    refine Nat.or_lt_two_pow ?_ (Nat.lt_of_lt_of_le (ih _) ?_)
    · rw [Nat.shiftLeft_eq]
      calc x % 256 * 2 ^ (8 * k) < 256 * 2 ^ (8 * k) :=
            Nat.mul_lt_mul_of_lt_of_le (Nat.mod_lt _ (by norm_num)) (Nat.le_refl _)
              (by positivity)
        _ = 2 ^ (8 * (k + 1)) := by rw [show (256 : Nat) = 2 ^ 8 by norm_num, ← Nat.pow_add]; ring_nf
    · exact Nat.pow_le_pow_right (by norm_num) (by omega)

lemma testBit_reverseBits (x i : Nat) :
    (reverseBits x).testBit i = (decide (i < 64) && x.testBit (63 - i)) := by
  have h := testBit_rvb 64 x i
  simpa [reverseBits] using h

lemma testBit_swapBytes (x i : Nat) :
    (swapBytes x).testBit i =
      (decide (i < 64) && x.testBit (8 * (7 - i / 8) + i % 8)) := by
  have h := testBit_swb 8 x i
  simpa [swapBytes] using h

lemma reverseBits_lt (x : Nat) : reverseBits x < 2 ^ 64 := rvb_lt 64 x

lemma swapBytes_lt (x : Nat) : swapBytes x < 2 ^ 64 := swb_lt 8 x

set_option maxRecDepth 16000 in
set_option maxHeartbeats 4000000 in
/-- The three-pass code transposes the 8 by 8 bit matrix. -/
lemma testBit_transpose (b : Nat) (i : Nat) (hi : i < 64) :
    (transpose b).testBit i = b.testBit (8 * (i % 8) + i / 8) := by
  interval_cases i <;>
  · simp only [transpose, Nat.testBit_xor, Nat.testBit_and, Nat.testBit_or,
      Nat.testBit_shiftLeft, Nat.testBit_shiftRight]
    simp [Nat.testBit_to_div_mod, Bool.xor_assoc, Bool.xor_comm, Bool.xor_left_comm,
      Bool.xor_self, Bool.xor_false]

lemma and_shiftLeft_lt {x m : Nat} (s t : Nat) (h : m <<< s < 2 ^ t) :
    (x &&& m) <<< s < 2 ^ t :=
  Nat.lt_of_le_of_lt (shiftLeft_le_shiftLeft s Nat.and_le_right) h

lemma transpose_lt {b : Nat} (hb : b < 2 ^ 64) : transpose b < 2 ^ 64 := by
  simp only [transpose]
  exact Nat.xor_lt_two_pow
    (Nat.xor_lt_two_pow
      (Nat.xor_lt_two_pow
        (Nat.xor_lt_two_pow
          (Nat.xor_lt_two_pow (Nat.xor_lt_two_pow hb (Nat.and_lt_two_pow _ (by decide)))
            (and_shiftLeft_lt _ _ (by decide)))
          (Nat.and_lt_two_pow _ (by decide)))
        (and_shiftLeft_lt _ _ (by decide)))
      (Nat.and_lt_two_pow _ (by decide)))
    (and_shiftLeft_lt _ _ (by decide))

lemma shiftRight_lt_two_pow {x : Nat} (s n : Nat) (h : x < 2 ^ (n + s)) :
    x >>> s < 2 ^ n := by
  rw [Nat.shiftRight_eq_div_pow, Nat.div_lt_iff_lt_mul (Nat.pow_pos (by norm_num))]
  calc x < 2 ^ (n + s) := h
    _ = 2 ^ n * 2 ^ s := Nat.pow_add 2 n s

lemma swapBytes_shifted_even (x : Nat) : swapBytes (swapBytes x >>> 8) % 2 = 0 := by
  have h : (swapBytes (swapBytes x >>> 8)).testBit 0 = false := by
    rw [testBit_swapBytes]
    simpa [Nat.testBit_shiftRight] using Nat.testBit_lt_two_pow (swapBytes_lt x)
  have h2 : ¬ (swapBytes (swapBytes x >>> 8) % 2 = 1) := by
    simpa [Nat.testBit_zero] using h
  omega

/-- C7, as stated by the spec: `rotate_180` would be `reverse_bits` followed
by the same one-bit correction shift that `reverse_rows` uses. -/
def c7Claim : Prop := ∀ b : Nat, b < 2 ^ 64 → rotate_180 b = reverseBits b >>> 1

/-- C7 counterexample: already on the goal board (single centre peg) the
one-bit shift puts the peg at `(4,3)` instead of the centre; the code
shifts by 9 bits, not 1. -/
theorem c7_counterexample : ¬ c7Claim := fun h =>
  absurd (h solved (by decide)) (by decide)

set_option maxHeartbeats 2000000 in
/-- C7 amended: `rotate_180` is `reverse_bits` followed by a 9-bit right
shift (the byte swap hidden in `reverse_rows`' 1-bit correction is absorbed
into the shift), and this equals reversing both rows and columns. -/
theorem c7_rotate_180_correction (b : Nat) (hb : b < 2 ^ 64) :
    rotate_180 b = reverseBits b >>> 9 ∧
    rotate_180 b = reverse_rows (reverse_cols b) := by
  refine ⟨rfl, ?_⟩
  apply Nat.eq_of_testBit_eq
  intro i
  rcases Nat.lt_or_ge i 64 with hi | hi
  · interval_cases i <;>
      simp [rotate_180, reverse_rows, reverse_cols, testBit_reverseBits,
        testBit_swapBytes, Nat.testBit_shiftRight, swapBytes_shifted_even]
  · rw [Nat.testBit_lt_two_pow (x := rotate_180 b), Nat.testBit_lt_two_pow]
    · exact Nat.lt_of_lt_of_le
        (shiftRight_lt_two_pow 1 63 (by simpa using reverseBits_lt (swapBytes (reverse_cols b))))
        (Nat.pow_le_pow_right (by norm_num) (by omega))
    · exact Nat.lt_of_lt_of_le
        (shiftRight_lt_two_pow 9 55 (by simpa using reverseBits_lt b))
        (Nat.pow_le_pow_right (by norm_num) (by omega))

/-- C7 witness: the amended identities evaluated at the start board. -/
theorem c7_rotate_180_correction_witness :
    rotate_180 defaultBoard = reverseBits defaultBoard >>> 9 ∧
    rotate_180 defaultBoard = reverse_rows (reverse_cols defaultBoard) :=
  c7_rotate_180_correction defaultBoard (by decide)

/-- `Solution`: a fixed 31-slot array of moves plus a fill counter. -/
structure Solution where
  steps : Fin 31 → Move
  count : Nat

/-- `Solution::default()`: all slots hold the all-zero move, nothing pushed. -/
instance : Inhabited Solution := ⟨⟨fun _ => default, 0⟩⟩

/-- `Solution::push`: write at index `count`, then increment.  Writing past
slot 30 panics in the code; the model leaves the array unchanged on that
unreachable branch. -/
def Solution.push (s : Solution) (m : Move) : Solution :=
  if h : s.count < 31 then ⟨Function.update s.steps ⟨s.count, h⟩ m, s.count + 1⟩
  else ⟨s.steps, s.count + 1⟩

/-- `Solution::pop`: decrement and read the slot (the array keeps its
contents). -/
def Solution.pop (s : Solution) : Solution × Move :=
  (⟨s.steps, s.count - 1⟩,
    if h : s.count - 1 < 31 then s.steps ⟨s.count - 1, h⟩ else default)

/-- `Solution::len()`. -/
def Solution.len (s : Solution) : Nat := s.count

/-- Slot read at a plain index, as the iterator and `Display` do. -/
def Solution.slot (s : Solution) (i : Nat) : Move :=
  if h : i < 31 then s.steps ⟨i, h⟩ else default

/-- `SolutionIter`: `next()` walks indices `0..31` over the whole backing
array, ignoring `count`. -/
def Solution.intoIterList (s : Solution) : List Move :=
  (List.range 31).map s.slot

/-- The moves `Solution`'s `Display` impl formats: every slot `0..31`. -/
def Solution.displayedSteps (s : Solution) : List Move :=
  (List.range 31).map s.slot

/-- Solutions reachable through the public API: `default`, `push`, `pop`. -/
inductive Reachable : Solution → Prop where
  | dflt : Reachable default
  | push : ∀ s m, Reachable s → Reachable (s.push m)
  | pop : ∀ s, Reachable s → Reachable (s.pop).1

/-- Solutions built by pushes alone. -/
inductive PushBuilt : Solution → Prop where
  | dflt : PushBuilt default
  | push : ∀ s m, PushBuilt s → PushBuilt (s.push m)

/-- C9, as stated: iteration and display cover all 31 slots, and every slot
at index at least `len()` reads as the default move. -/
def c9Claim : Prop :=
  ∀ s : Solution, Reachable s →
    s.intoIterList.length = 31 ∧ s.displayedSteps.length = 31 ∧
    ∀ i : Nat, s.len ≤ i → s.slot i = default

/-- C9 counterexample: push one real move and pop it again; `len()` is back
to 0 but slot 0 still holds the popped move, not the default. -/
theorem c9_counterexample : ¬ c9Claim := by
  intro h
  have hr : Reachable (((default : Solution).push ⟨(1, 3), (2, 3), (3, 3)⟩).pop).1 :=
    .pop _ (.push _ _ .dflt)
  have h3 := (h _ hr).2.2 0 (by decide)
  exact absurd h3 (by decide)

lemma push_count (s : Solution) (m : Move) : (s.push m).count = s.count + 1 := by
  unfold Solution.push
  split <;> rfl

/-- C9 amended: consuming a `Solution` yields exactly 31 moves and `Display`
formats exactly 31 slots, for every value; slots at index at least `len()`
hold the default all-zero move for solutions built by pushes alone (a `pop`
can leave the popped move behind in a slot past `len()`). -/
theorem c9_solution_iteration (s : Solution) :
    (s.intoIterList.length = 31 ∧ s.displayedSteps.length = 31) ∧
    (PushBuilt s → ∀ i : Nat, s.len ≤ i → s.slot i = default) := by
  constructor
  · constructor <;> simp [Solution.intoIterList, Solution.displayedSteps]
  · intro hp
    induction hp with
    | dflt =>
      intro i hi
      unfold Solution.slot
      split <;> rfl
    | push s m hps ih =>
      intro i hi
      rw [Solution.len, push_count] at hi
      unfold Solution.slot
      split
      case isTrue h31 =>
        unfold Solution.push
        split
        case isTrue hc =>
          dsimp only
          rw [Function.update_noteq (by simp [Fin.ext_iff]; omega)]
          have := ih i (by simp [Solution.len]; omega)
          unfold Solution.slot at this
          rw [dif_pos h31] at this
          exact this
        case isFalse hc =>
          dsimp only
          have := ih i (by simp [Solution.len]; omega)
          unfold Solution.slot at this
          rw [dif_pos h31] at this
          exact this
      case isFalse => rfl

/-- C9 witness: the amended statement evaluated after one push. -/
theorem c9_solution_iteration_witness :
    (((default : Solution).push ⟨(1, 3), (2, 3), (3, 3)⟩).intoIterList.length = 31 ∧
      ((default : Solution).push ⟨(1, 3), (2, 3), (3, 3)⟩).displayedSteps.length = 31) ∧
    ((default : Solution).push ⟨(1, 3), (2, 3), (3, 3)⟩).slot 5 = default := by
  have h := c9_solution_iteration ((default : Solution).push ⟨(1, 3), (2, 3), (3, 3)⟩)
  exact ⟨h.1, h.2 (.push _ _ .dflt) 5 (by decide)⟩

/-- Model of `Vec::dedup`: drop consecutive repeated elements, keeping the
first of each run.  Boards compare as their packed `u64` words. -/
def dedup : List Nat → List Nat
  | [] => []
  | [a] => [a]
  | a :: b :: t => if a = b then dedup (a :: t) else a :: dedup (b :: t)

/-- `usize::div_ceil`. -/
def divCeil (a b : Nat) : Nat := (a + b - 1) / b

/-- `slice::chunks(c)`: contiguous chunks of length `c` (last may be
shorter); `c` is always positive at the call site. -/
def chunksOf (c : Nat) (l : List Nat) : List (List Nat) :=
  if l = [] then []
  else if c = 0 then [l]
  else l.take c :: chunksOf c (l.drop c)
termination_by l.length
decreasing_by
  rename_i h1 h2
  have : l.length ≠ 0 := fun h => h1 (List.eq_nil_of_length_eq_zero h)
  simp
  omega

/-- The boundary fix of `par_dedup`: for each adjacent pair of chunks, drop
the last element of the left chunk when it equals the right chunk's first. -/
def fixChunks : List (List Nat) → List (List Nat)
  | [] => []
  | [c] => [c]
  | c1 :: c2 :: t =>
    (if c1.getLast? = c2.head? then c1.dropLast else c1) :: fixChunks (c2 :: t)

/-- `par_dedup`: dedup sequentially for one thread or a small input,
otherwise dedup `n` chunks independently, fix the chunk boundaries and
concatenate. -/
def par_dedup (v : List Nat) (n : Nat) : List Nat :=
  if n = 1 then dedup v
  else if v.length < 100 * n then dedup v
  else (fixChunks ((chunksOf (divCeil v.length n) v).map dedup)).flatten

lemma dedup_ne_nil : ∀ l : List Nat, l ≠ [] → dedup l ≠ []
  | [], h => absurd rfl h
  | [a], _ => by rw [dedup]; simp
  | a :: b :: t, _ => by
    rw [dedup]
    split
    · exact dedup_ne_nil (a :: t) (by simp)
    · simp
termination_by l => l.length

lemma dedup_head? : ∀ l : List Nat, (dedup l).head? = l.head?
  | [] => by rw [dedup]
  | [a] => by rw [dedup]
  | a :: b :: t => by
    rw [dedup]
    split
    case isTrue h =>
      rw [dedup_head? (a :: t)]
      simp
    case isFalse h => rfl
termination_by l => l.length

lemma dedup_getLast? : ∀ l : List Nat, (dedup l).getLast? = l.getLast?
  | [] => by rw [dedup]
  | [a] => by rw [dedup]
  | a :: b :: t => by
    rw [dedup]
    split
    case isTrue h =>
      rw [dedup_getLast? (a :: t), List.getLast?_cons_cons]
      subst h
      cases t with
      | nil => rfl
      | cons c t' => rw [List.getLast?_cons_cons]
    case isFalse h =>
      have hne := dedup_ne_nil (b :: t) (by simp)
      rcases hd : dedup (b :: t) with _ | ⟨d0, d1⟩
      · exact absurd hd hne
      · rw [List.getLast?_cons_cons, ← hd, dedup_getLast? (b :: t),
          List.getLast?_cons_cons]
termination_by l => l.length

lemma dedup_mem : ∀ (l : List Nat) (a : Nat), a ∈ dedup l ↔ a ∈ l
  | [], a => by rw [dedup]
  | [x], a => by rw [dedup]
  | x1 :: x2 :: t, a => by
    rw [dedup]
    split
    case isTrue h =>
      rw [dedup_mem (x1 :: t) a]
      subst h
      simp [or_assoc]
    case isFalse h =>
      simp only [List.mem_cons, dedup_mem (x2 :: t) a]
termination_by l => l.length

lemma dedup_sorted_lt : ∀ l : List Nat, l.Sorted (· ≤ ·) → (dedup l).Sorted (· < ·)
  | [], _ => by rw [dedup]; exact List.sorted_nil
  | [a], _ => by rw [dedup]; exact List.sorted_singleton a
  | a :: b :: t, hs => by
    rw [dedup]
    split
    case isTrue h =>
      refine dedup_sorted_lt (a :: t) ?_
      exact hs.sublist (by
        refine List.Sublist.cons₂ a ?_
        exact (List.sublist_cons_self b t))
    case isFalse h =>
      have hs2 : (b :: t).Sorted (· ≤ ·) := hs.of_cons
      refine List.sorted_cons.mpr ⟨?_, dedup_sorted_lt (b :: t) hs2⟩
      intro c hc
      have hcmem : c ∈ b :: t := (dedup_mem _ c).mp hc
      have hab : a ≤ b := List.rel_of_sorted_cons hs b (by simp)
      have hbc : b ≤ c := by
        rcases List.mem_cons.mp hcmem with hcb | hct
        · omega
        · exact List.rel_of_sorted_cons hs2 c hct
      omega
termination_by l => l.length

lemma dedup_append : ∀ (xs ys : List Nat), xs ≠ [] →
    dedup (xs ++ ys) =
      (if (dedup xs).getLast? = ys.head? then (dedup xs).dropLast else dedup xs)
        ++ dedup ys
  | [x], ys, _ => by
    cases ys with
    | nil => simp [dedup]
    | cons y t =>
      by_cases hxy : x = y
      · subst hxy
        simp only [List.singleton_append, dedup, if_pos rfl, List.head?_cons,
          List.getLast?_singleton, Option.some.injEq]
        simp
      · simp only [List.singleton_append, dedup, if_neg hxy, List.head?_cons,
          List.getLast?_singleton, Option.some.injEq]
  | x1 :: x2 :: rest, ys, _ => by
    by_cases h12 : x1 = x2
    · have ih := dedup_append (x1 :: rest) ys (by simp)
      have hl : dedup ((x1 :: x2 :: rest) ++ ys) = dedup ((x1 :: rest) ++ ys) := by
        simp only [List.cons_append, dedup, if_pos h12]
      have hr : dedup (x1 :: x2 :: rest) = dedup (x1 :: rest) := by
        rw [dedup, if_pos h12]
      rw [hl, ih, hr]
    · have ih := dedup_append (x2 :: rest) ys (by simp)
      have hl : dedup ((x1 :: x2 :: rest) ++ ys) =
          x1 :: dedup ((x2 :: rest) ++ ys) := by
        simp only [List.cons_append, dedup, if_neg h12]
      have hr : dedup (x1 :: x2 :: rest) = x1 :: dedup (x2 :: rest) := by
        rw [dedup, if_neg h12]
      rw [hl, ih, hr]
      have hne := dedup_ne_nil (x2 :: rest) (by simp)
      rcases hd : dedup (x2 :: rest) with _ | ⟨d0, d1⟩
      · exact absurd hd hne
      · rw [List.getLast?_cons_cons, List.dropLast_cons₂]
        split <;> simp
termination_by xs _ _ => xs.length

lemma flatten_fixChunks : ∀ cs : List (List Nat), (∀ c ∈ cs, c ≠ []) →
    (fixChunks (cs.map dedup)).flatten = dedup cs.flatten
  | [], _ => by
    simp [fixChunks, dedup]
  | [c], _ => by
    simp [fixChunks]
  | c1 :: c2 :: t, hne => by
    have h1 : c1 ≠ [] := hne c1 (by simp)
    have h2 : c2 ≠ [] := hne c2 (by simp)
    have ih := flatten_fixChunks (c2 :: t) (fun c hc => hne c (by simp [hc]))
    rw [List.map_cons] at ih
    have hhead : ((c2 :: t).flatten).head? = (dedup c2).head? := by
      rw [List.flatten_cons, List.head?_append, dedup_head?]
      rcases c2 with _ | ⟨y, t2⟩
      · exact absurd rfl h2
      · rfl
    calc (fixChunks ((c1 :: c2 :: t).map dedup)).flatten
        = (if (dedup c1).getLast? = (dedup c2).head? then (dedup c1).dropLast
            else dedup c1) ++ dedup ((c2 :: t).flatten) := by
          simp only [List.map_cons, fixChunks, List.flatten_cons, ih]
      _ = dedup (c1 ++ (c2 :: t).flatten) := by
          rw [dedup_append c1 _ h1, hhead]
      _ = dedup ((c1 :: c2 :: t).flatten) := by simp
termination_by cs _ => cs.length

lemma chunksOf_flatten (c : Nat) (l : List Nat) : (chunksOf c l).flatten = l := by
  induction l using chunksOf.induct c with
  | case1 => simp [chunksOf]
  | case2 l hne hc0 =>
    rw [chunksOf, if_neg hne, if_pos hc0]
    simp
  | case3 l hne hc0 ih =>
    rw [chunksOf, if_neg hne, if_neg hc0, List.flatten_cons, ih, List.take_append_drop]

lemma chunksOf_ne_nil (c : Nat) (l : List Nat) : ∀ m ∈ chunksOf c l, m ≠ [] := by
  induction l using chunksOf.induct c with
  | case1 => simp [chunksOf]
  | case2 l hne hc0 =>
    rw [chunksOf, if_neg hne, if_pos hc0]
    intro m hm
    rw [List.mem_singleton] at hm
    subst hm
    exact hne
  | case3 l hne hc0 ih =>
    rw [chunksOf, if_neg hne, if_neg hc0]
    intro m hm
    rcases List.mem_cons.mp hm with hm1 | hm2
    · subst hm1
      simp [List.take_eq_nil_iff, hne, hc0]
    · exact ih m hm2

lemma par_dedup_eq_dedup (v : List Nat) (n : Nat) : par_dedup v n = dedup v := by
  unfold par_dedup
  split
  · rfl
  · split
    · rfl
    · rw [flatten_fixChunks _ (chunksOf_ne_nil _ _), chunksOf_flatten]

/-- C6: on a sorted input and any thread count, `par_dedup` agrees with
sequential `dedup`: the result is strictly sorted and contains exactly the
distinct values of the input, in order — boundary runs spanning any number
of chunks included. -/
theorem c6_par_dedup_correct (v : List Nat) (n : Nat) (hn : 1 ≤ n)
    (hs : v.Sorted (· ≤ ·)) :
    par_dedup v n = dedup v ∧ (par_dedup v n).Sorted (· < ·) ∧
    ∀ a : Nat, a ∈ par_dedup v n ↔ a ∈ v := by
  refine ⟨par_dedup_eq_dedup v n, ?_, ?_⟩
  · rw [par_dedup_eq_dedup]
    exact dedup_sorted_lt v hs
  · intro a
    rw [par_dedup_eq_dedup]
    exact dedup_mem v a

/-- C6 witness: a single 301-long run split over three chunks collapses to
one element. -/
theorem c6_par_dedup_correct_witness :
    par_dedup (List.replicate 301 5) 3 = dedup (List.replicate 301 5) ∧
    (par_dedup (List.replicate 301 5) 3).Sorted (· < ·) ∧
    ∀ a : Nat, a ∈ par_dedup (List.replicate 301 5) 3 ↔ a ∈ List.replicate 301 5 :=
  c6_par_dedup_correct _ 3 (by norm_num)
    (List.pairwise_replicate.mpr (Or.inr (Nat.le_refl 5)))

/-- The `MOVABLE_EAST` constant: cells from which an eastward jump stays on
the cross, written as the source's chain of `set` calls. -/
def movableEast : Nat :=
  set (set (set (set (set (set (set (set (set (set (set (set (set (set (set (set
    (set (set (set empty (0, 2)) (1, 2)) (2, 0)) (2, 1)) (2, 2)) (2, 3)) (2, 4))
    (3, 0)) (3, 1)) (3, 2)) (3, 3)) (3, 4)) (4, 0)) (4, 1)) (4, 2)) (4, 3)) (4, 4))
    (5, 2)) (6, 2)

/-- `Board::movable_positions(dir)`: the other three masks are images of
`MOVABLE_EAST` under the symmetry group, as in the source. -/
def movable_positions (d : Dir) : Nat :=
  match d with
  | .north => transpose (rotate_180 movableEast)
  | .east => movableEast
  | .south => transpose movableEast
  | .west => rotate_180 movableEast

/-- `Board::dir_shift(dir, count)`: logical shift by `count` cells (wrapping
left shifts truncate to 64 bits as on `u64`). -/
def dir_shift (b : Nat) (d : Dir) (count : Nat) : Nat :=
  match d with
  | .east => b >>> count
  | .west => (b <<< count) % 2 ^ 64
  | .south => b >>> (count * 8)
  | .north => (b <<< (count * 8)) % 2 ^ 64

/-- `Board::mov_pattern_mask(dir)`: origins of the playable forward moves. -/
def mov_pattern_mask (b : Nat) (d : Dir) : Nat :=
  movable_positions d &&& b &&& dir_shift b d 1 &&& (u64Mask ^^^ dir_shift b d 2)

/-- `Board::rev_mov_pattern_mask(dir)`: origins of the playable reverse
moves (middle and far cells empty). -/
def rev_mov_pattern_mask (b : Nat) (d : Dir) : Nat :=
  movable_positions d &&& b &&& (u64Mask ^^^ dir_shift b d 1) &&&
    (u64Mask ^^^ dir_shift b d 2)

/-- `Board::count_balls()`: population count (model for words below
`2 ^ 64`). -/
def count_balls (b : Nat) : Nat :=
  ((List.range 64).filter (fun i => b.testBit i)).length

lemma compl_testBit (x : Nat) {i : Nat} (hi : i < 64) :
    (u64Mask ^^^ x).testBit i = !x.testBit i := by
  rw [Nat.testBit_xor]
  have hm : u64Mask.testBit i = true := by
    unfold u64Mask
    rw [Nat.testBit_two_pow_sub_one]
    simp [hi]
  rw [hm]
  cases x.testBit i <;> rfl

lemma masked_testBit {b : Nat} (hb : b &&& full = b) {i : Nat}
    (h : b.testBit i = true) : full.testBit i = true := by
  rw [← hb, Nat.testBit_and] at h
  exact (Bool.and_eq_true_iff.mp h).2

lemma masked_lt {b : Nat} (hb : b &&& full = b) : b < 2 ^ 64 := by
  rw [← hb]
  exact Nat.and_lt_two_pow b (lt_trans full_lt (by norm_num))

lemma glm_isSome (b : Nat) (p : Int × Int) (d : Dir) :
    (get_legal_move b p d).isSome =
      (inbounds (d.mov p).2 && occupied b (d.mov p).1 && !occupied b (d.mov p).2) := by
  unfold get_legal_move
  cases hc : (inbounds (d.mov p).2 && occupied b (d.mov p).1 && !occupied b (d.mov p).2)
  · rw [if_neg (by simp [hc])]
    rfl
  · rw [if_pos (by simp [hc])]
    rfl

set_option maxRecDepth 16000 in
lemma east_inb_iff : ∀ i : Fin 64, full.testBit i.val = true →
    movableEast.testBit i.val =
      inbounds ((i.val : Int) / 8, (i.val : Int) % 8 + 2) := by decide

set_option maxRecDepth 16000 in
lemma west_inb_iff : ∀ i : Fin 64, full.testBit i.val = true →
    (rotate_180 movableEast).testBit i.val =
      inbounds ((i.val : Int) / 8, (i.val : Int) % 8 - 2) := by decide

set_option maxRecDepth 16000 in
lemma south_inb_iff : ∀ i : Fin 64, full.testBit i.val = true →
    (transpose movableEast).testBit i.val =
      inbounds ((i.val : Int) / 8 + 2, (i.val : Int) % 8) := by decide

set_option maxRecDepth 16000 in
lemma north_inb_iff : ∀ i : Fin 64, full.testBit i.val = true →
    (transpose (rotate_180 movableEast)).testBit i.val =
      inbounds ((i.val : Int) / 8 - 2, (i.val : Int) % 8) := by decide

set_option maxRecDepth 16000 in
lemma west_movable_ge : ∀ i : Fin 64,
    (rotate_180 movableEast).testBit i.val = true → 2 ≤ i.val % 8 := by decide

set_option maxRecDepth 16000 in
lemma north_movable_ge : ∀ i : Fin 64,
    (transpose (rotate_180 movableEast)).testBit i.val = true → 16 ≤ i.val := by decide

/-- The mask bit at `i` holds exactly when cell `i` is occupied and starts a
legal move in direction `d` (for boards within the 33-cell mask). -/
lemma mask_bit_iff (b : Nat) (hb : b &&& full = b) (d : Dir) (i : Nat)
    (hi : i < 64) :
    (mov_pattern_mask b d).testBit i =
      (b.testBit i && (get_legal_move b (cellOf i) d).isSome) := by
  have hms : ∀ x : Nat, (u64Mask ^^^ x).testBit i = !x.testBit i :=
    fun x => compl_testBit x hi
  rw [glm_isSome]
  cases hbi : b.testBit i with
  | false =>
    simp [mov_pattern_mask, Nat.testBit_and, hbi]
  | true =>
    have hfull := masked_testBit hb hbi
    have h64 : (decide (i < 64)) = true := by simp [hi]
    cases d with
    | east =>
      have hiff : movableEast.testBit i =
          inbounds ((i : Int) / 8, (i : Int) % 8 + 2) := east_inb_iff ⟨i, hi⟩ hfull
      have hskip : bitIdx ((i : Int) / 8, (i : Int) % 8 + 1) = i + 1 := by
        simp [bitIdx]
        omega
      have htar : bitIdx ((i : Int) / 8, (i : Int) % 8 + 2) = i + 2 := by
        simp [bitIdx]
        omega
      have e1 : 1 + i = i + 1 := by omega
      have e2 : 2 + i = i + 2 := by omega
      cases hinb : inbounds ((i : Int) / 8, (i : Int) % 8 + 2) with
      | false =>
        have hmv : movableEast.testBit i = false := by rw [hiff, hinb]
        simp [mov_pattern_mask, movable_positions, Nat.testBit_and, hmv, Dir.mov,
          cellOf, hinb]
      | true =>
        have hmv : movableEast.testBit i = true := by rw [hiff, hinb]
        simp only [mov_pattern_mask, movable_positions, dir_shift, Nat.testBit_and,
          hms, Nat.testBit_shiftRight, Dir.mov, cellOf, occupied, hskip, htar,
          hbi, hmv, hinb, e1, e2, Bool.and_true, Bool.true_and]
    | south =>
      have hiff : (transpose movableEast).testBit i =
          inbounds ((i : Int) / 8 + 2, (i : Int) % 8) := south_inb_iff ⟨i, hi⟩ hfull
      have hskip : bitIdx ((i : Int) / 8 + 1, (i : Int) % 8) = i + 8 := by
        simp [bitIdx]
        omega
      have htar : bitIdx ((i : Int) / 8 + 2, (i : Int) % 8) = i + 16 := by
        simp [bitIdx]
        omega
      have e1 : 1 * 8 + i = i + 8 := by omega
      have e2 : 2 * 8 + i = i + 16 := by omega
      cases hinb : inbounds ((i : Int) / 8 + 2, (i : Int) % 8) with
      | false =>
        have hmv : (transpose movableEast).testBit i = false := by rw [hiff, hinb]
        simp [mov_pattern_mask, movable_positions, Nat.testBit_and, hmv, Dir.mov,
          cellOf, hinb]
      | true =>
        have hmv : (transpose movableEast).testBit i = true := by rw [hiff, hinb]
        simp only [mov_pattern_mask, movable_positions, dir_shift, Nat.testBit_and,
          hms, Nat.testBit_shiftRight, Dir.mov, cellOf, occupied, hskip, htar,
          hbi, hmv, hinb, e1, e2, Bool.and_true, Bool.true_and]
    | west =>
      have hiff : (rotate_180 movableEast).testBit i =
          inbounds ((i : Int) / 8, (i : Int) % 8 - 2) := west_inb_iff ⟨i, hi⟩ hfull
      have hskip : bitIdx ((i : Int) / 8, (i : Int) % 8 - 1) = i - 1 := by
        simp [bitIdx]
        omega
      have htar : bitIdx ((i : Int) / 8, (i : Int) % 8 - 2) = i - 2 := by
        simp [bitIdx]
        omega
      cases hinb : inbounds ((i : Int) / 8, (i : Int) % 8 - 2) with
      | false =>
        have hmv : (rotate_180 movableEast).testBit i = false := by rw [hiff, hinb]
        simp [mov_pattern_mask, movable_positions, Nat.testBit_and, hmv, Dir.mov,
          cellOf, hinb]
      | true =>
        have hmv : (rotate_180 movableEast).testBit i = true := by rw [hiff, hinb]
        have hge : 2 ≤ i % 8 := west_movable_ge ⟨i, hi⟩ hmv
        have d1 : (decide (1 ≤ i)) = true := by
          simp only [decide_eq_true_eq]
          omega
        have d2 : (decide (2 ≤ i)) = true := by
          simp only [decide_eq_true_eq]
          omega
        simp only [mov_pattern_mask, movable_positions, dir_shift, Nat.testBit_and,
          hms, Nat.testBit_mod_two_pow, Nat.testBit_shiftLeft, Dir.mov, cellOf,
          occupied, hskip, htar, hbi, hmv, hinb, h64, d1, d2, Bool.and_true,
          Bool.true_and]
    | north =>
      have hiff : (transpose (rotate_180 movableEast)).testBit i =
          inbounds ((i : Int) / 8 - 2, (i : Int) % 8) := north_inb_iff ⟨i, hi⟩ hfull
      have hskip : bitIdx ((i : Int) / 8 - 1, (i : Int) % 8) = i - 8 := by
        simp [bitIdx]
        omega
      have htar : bitIdx ((i : Int) / 8 - 2, (i : Int) % 8) = i - 16 := by
        simp [bitIdx]
        omega
      cases hinb : inbounds ((i : Int) / 8 - 2, (i : Int) % 8) with
      | false =>
        have hmv : (transpose (rotate_180 movableEast)).testBit i = false := by
          rw [hiff, hinb]
        simp [mov_pattern_mask, movable_positions, Nat.testBit_and, hmv, Dir.mov,
          cellOf, hinb]
      | true =>
        have hmv : (transpose (rotate_180 movableEast)).testBit i = true := by
          rw [hiff, hinb]
        have hge : 16 ≤ i := north_movable_ge ⟨i, hi⟩ hmv
        have d1 : (decide (1 * 8 ≤ i)) = true := by
          simp only [decide_eq_true_eq]
          omega
        have d2 : (decide (2 * 8 ≤ i)) = true := by
          simp only [decide_eq_true_eq]
          omega
        have e1 : i - 1 * 8 = i - 8 := by omega
        have e2 : i - 2 * 8 = i - 16 := by omega
        simp only [mov_pattern_mask, movable_positions, dir_shift, Nat.testBit_and,
          hms, Nat.testBit_mod_two_pow, Nat.testBit_shiftLeft, Dir.mov, cellOf,
          occupied, hskip, htar, hbi, hmv, hinb, h64, d1, d2, e1, e2, Bool.and_true,
          Bool.true_and]

lemma glm_dir (b : Nat) (p : Int × Int) (d : Dir) (m : Move)
    (h : get_legal_move b p d = some m) : m.dir = d := by
  simp only [get_legal_move] at h
  split at h
  case isFalse => exact absurd h (by simp)
  case isTrue hc =>
    have hm : m = ⟨p, (d.mov p).1, (d.mov p).2⟩ := by
      injection h with hinj
      exact hinj.symm
    subst hm
    cases d <;>
    · simp only [Move.dir, Dir.mov]
      split_ifs <;> first | rfl | omega

lemma countP_filterMap_dirs (b : Nat) (p : Int × Int) (d : Dir) :
    ∀ ds : List Dir,
      ((ds.filterMap (fun dd => get_legal_move b p dd)).countP
          (fun m => decide (m.dir = d))) =
        ds.countP (fun dd => decide (dd = d) && (get_legal_move b p dd).isSome) := by
  intro ds
  induction ds with
  | nil => rfl
  | cons dd rest ih =>
    cases hg : get_legal_move b p dd with
    | none => simp [List.filterMap_cons, hg, List.countP_cons, ih]
    | some m =>
      have hm := glm_dir b p dd m hg
      by_cases hdd : dd = d
      · subst hdd
        simp [List.filterMap_cons, hg, List.countP_cons, ih, hm]
      · simp [List.filterMap_cons, hg, List.countP_cons, ih, hm, hdd]

lemma countP_dirs (b : Nat) (p : Int × Int) (d : Dir) :
    ((Dir.enumerate.filterMap (fun dd => get_legal_move b p dd)).countP
        (fun m => decide (m.dir = d))) =
      (if (get_legal_move b p d).isSome then 1 else 0) := by
  rw [countP_filterMap_dirs]
  cases d <;> simp [Dir.enumerate, List.countP_cons]

lemma countP_flatMap {α β : Type} (f : α → List β) (p : β → Bool) :
    ∀ l : List α, ((l.flatMap f).countP p) = (l.map (fun a => (f a).countP p)).sum := by
  intro l
  induction l with
  | nil => rfl
  | cons a t ih => simp [List.flatMap_cons, List.countP_append, ih]

lemma sum_map_ite_countP {α : Type} (p : α → Bool) :
    ∀ l : List α, (l.map (fun a => if p a then 1 else 0)).sum = l.countP p := by
  intro l
  induction l with
  | nil => rfl
  | cons a t ih =>
    simp only [List.map_cons, List.sum_cons, List.countP_cons, ih]
    cases p a <;> simp [Nat.add_comm]

set_option maxRecDepth 16000 in
lemma movable_lt (d : Dir) : movable_positions d < 2 ^ 64 := by
  cases d <;> · rw [movable_positions]; decide

lemma mov_pattern_mask_lt (b : Nat) (d : Dir) : mov_pattern_mask b d < 2 ^ 64 := by
  unfold mov_pattern_mask
  calc movable_positions d &&& b &&& dir_shift b d 1 &&& (u64Mask ^^^ dir_shift b d 2)
      ≤ movable_positions d :=
        le_trans Nat.and_le_left (le_trans (le_refl _) (le_trans Nat.and_le_left Nat.and_le_left))
    _ < 2 ^ 64 := movable_lt d

/-- C5: the population count of `mov_pattern_mask(b, dir)` equals the number
of legal forward moves of `b` in direction `dir` as enumerated by
`get_legal_moves`, and every set bit of the mask is the origin of such a
move. -/
theorem c5_mov_pattern_mask_correct (b : Nat) (hb : b &&& full = b) (d : Dir) :
    count_balls (mov_pattern_mask b d) =
      ((get_legal_moves b).filter (fun m => decide (m.dir = d))).length ∧
    ∀ i : Nat, (mov_pattern_mask b d).testBit i = true →
      b.testBit i = true ∧ (get_legal_move b (cellOf i) d).isSome = true := by
  constructor
  · unfold count_balls get_legal_moves
    rw [← List.countP_eq_length_filter, ← List.countP_eq_length_filter,
      countP_flatMap,
      List.map_congr_left (fun i _ => countP_dirs b (cellOf i) d),
      sum_map_ite_countP, List.countP_filter]
    apply List.countP_congr
    intro i hmem
    have hi64 : i < 64 := List.mem_range.mp hmem
    rw [mask_bit_iff b hb d i hi64]
    constructor
    · intro h
      rcases Bool.and_eq_true_iff.mp h with ⟨h1, h2⟩
      simp [h1, h2]
    · intro h
      rcases Bool.and_eq_true_iff.mp h with ⟨h1, h2⟩
      simp [h1, h2]
  · intro i hbit
    rcases Nat.lt_or_ge i 64 with hi | hi
    · have hm := mask_bit_iff b hb d i hi
      rw [hbit] at hm
      exact ⟨(Bool.and_eq_true_iff.mp hm.symm).1, (Bool.and_eq_true_iff.mp hm.symm).2⟩
    · have : (mov_pattern_mask b d).testBit i = false :=
        Nat.testBit_lt_two_pow (Nat.lt_of_lt_of_le (mov_pattern_mask_lt b d)
          (Nat.pow_le_pow_right (by norm_num) hi))
      exact absurd hbit (by simp [this])

/-- C5 witness: on the start board the four centre-bound jumps give one
origin per direction. -/
theorem c5_mov_pattern_mask_correct_witness :
    count_balls (mov_pattern_mask defaultBoard Dir.north) =
      ((get_legal_moves defaultBoard).filter
        (fun m => decide (m.dir = Dir.north))).length ∧
    ∀ i : Nat, (mov_pattern_mask defaultBoard Dir.north).testBit i = true →
      defaultBoard.testBit i = true ∧
      (get_legal_move defaultBoard (cellOf i) Dir.north).isSome = true :=
  c5_mov_pattern_mask_correct defaultBoard (by decide) Dir.north

lemma and_any_masked {x : Nat} (q : Nat) (hx : x &&& full = x) :
    (x &&& q) &&& full = x &&& q := by
  calc (x &&& q) &&& full = x &&& (q &&& full) := Nat.and_assoc x q full
    _ = x &&& (full &&& q) := by rw [Nat.and_comm q full]
    _ = (x &&& full) &&& q := (Nat.and_assoc x full q).symm
    _ = x &&& q := by rw [hx]

lemma pow_and_full {k : Nat} (h : full.testBit k = true) :
    (1 <<< k) &&& full = 1 <<< k := by
  apply Nat.eq_of_testBit_eq
  intro i
  simp only [Nat.one_shiftLeft, Nat.testBit_and, Nat.testBit_two_pow]
  by_cases hk : k = i
  · subst hk
    simp [h]
  · simp [hk]

lemma two_pow_and_eq_zero {k m : Nat} (h : m.testBit k = false) :
    (1 <<< k) &&& m = 0 := by
  apply Nat.eq_of_testBit_eq
  intro i
  simp only [Nat.one_shiftLeft, Nat.testBit_and, Nat.testBit_two_pow, Nat.zero_testBit]
  by_cases hk : k = i
  · subst hk
    simp [h]
  · simp [hk]

lemma inbounds_full_bit {p : Int × Int} (h : inbounds p = true) :
    full.testBit (bitIdx p) = true := by
  unfold inbounds at h
  simp only [Bool.and_eq_true, decide_eq_true_eq] at h
  have hne := h.2
  unfold set empty at hne
  rw [Nat.zero_or] at hne
  by_contra hf
  exact hne (two_pow_and_eq_zero (Bool.not_eq_true _ ▸ hf))

lemma inbounds_bitIdx_lt {p : Int × Int} (h : inbounds p = true) :
    bitIdx p < 64 := by
  unfold inbounds at h
  simp only [Bool.and_eq_true, decide_eq_true_eq] at h
  unfold bitIdx
  omega

lemma full_bit_lt {k : Nat} (h : full.testBit k = true) : k < 64 := by
  by_contra hk
  rw [Nat.testBit_lt_two_pow] at h
  · exact Bool.false_ne_true h
  · exact Nat.lt_of_lt_of_le full_lt
      (Nat.pow_le_pow_right (by norm_num) (by omega))

lemma compl_of_masked {x : Nat} (hx : x &&& full = x) :
    x &&& (u64Mask ^^^ full) = 0 := by
  apply Nat.eq_of_testBit_eq
  intro i
  rcases Nat.lt_or_ge i 64 with hi | hi
  · simp only [Nat.testBit_and, compl_testBit full hi, Nat.zero_testBit]
    cases hxi : x.testBit i
    · rfl
    · simp [masked_testBit hx hxi]
  · have hx64 : x < 2 ^ 64 := masked_lt hx
    simp [Nat.testBit_and,
      Nat.testBit_lt_two_pow (Nat.lt_of_lt_of_le hx64
        (Nat.pow_le_pow_right (by norm_num) hi))]

lemma set_masked {x : Nat} {p : Int × Int} (hx : x &&& full = x)
    (hp : inbounds p = true) : set x p &&& full = set x p :=
  or_masked hx (pow_and_full (inbounds_full_bit hp))

lemma set_masked_bit {x : Nat} {k : Nat} (hx : x &&& full = x)
    (hk : full.testBit k = true) : (x ||| 1 <<< k) &&& full = x ||| 1 <<< k :=
  or_masked hx (pow_and_full hk)

lemma unset_masked {x : Nat} (p : Int × Int) (hx : x &&& full = x) :
    unset x p &&& full = unset x p :=
  and_any_masked _ hx

lemma glm_some_elim {b : Nat} {p : Int × Int} {d : Dir} {m : Move}
    (h : get_legal_move b p d = some m) :
    m = ⟨p, (d.mov p).1, (d.mov p).2⟩ ∧ inbounds (d.mov p).2 = true ∧
    occupied b (d.mov p).1 = true ∧ occupied b (d.mov p).2 = false := by
  simp only [get_legal_move] at h
  split at h
  case isFalse => exact absurd h (by simp)
  case isTrue hc =>
    rcases Bool.and_eq_true_iff.mp hc with ⟨hc1, hc2⟩
    rcases Bool.and_eq_true_iff.mp hc1 with ⟨hinb, hskip⟩
    injection h with hinj
    refine ⟨hinj.symm, hinb, hskip, ?_⟩
    cases hocc : occupied b (d.mov p).2
    · rfl
    · rw [hocc] at hc2
      exact absurd hc2 (by simp)

lemma glim_some_elim {b : Nat} {t : Int × Int} {d : Dir} {m : Move}
    (h : get_legal_inverse_move b t d = some m) :
    m = ⟨(d.mov t).2, (d.mov t).1, t⟩ ∧ inbounds (d.mov t).2 = true ∧
    occupied b (d.mov t).1 = false ∧ occupied b (d.mov t).2 = false := by
  simp only [get_legal_inverse_move] at h
  split at h
  case isFalse => exact absurd h (by simp)
  case isTrue hc =>
    rcases Bool.and_eq_true_iff.mp hc with ⟨hc1, hc2⟩
    rcases Bool.and_eq_true_iff.mp hc1 with ⟨hinb, hskip⟩
    injection h with hinj
    have hsk : occupied b (d.mov t).1 = false := by
      cases hocc : occupied b (d.mov t).1
      · rfl
      · rw [hocc] at hskip
        exact absurd hskip (by simp)
    have htg : occupied b (d.mov t).2 = false := by
      cases hocc : occupied b (d.mov t).2
      · rfl
      · rw [hocc] at hc2
        exact absurd hc2 (by simp)
    exact ⟨hinj.symm, hinb, hsk, htg⟩

lemma mem_legal_moves {b : Nat} {m : Move} (h : m ∈ get_legal_moves b) :
    ∃ i, i < 64 ∧ b.testBit i = true ∧
      ∃ d, get_legal_move b (cellOf i) d = some m := by
  unfold get_legal_moves at h
  rcases List.mem_flatMap.mp h with ⟨i, hi, hm⟩
  rcases List.mem_filter.mp hi with ⟨hir, hib⟩
  rcases List.mem_filterMap.mp hm with ⟨d, _, hd⟩
  exact ⟨i, List.mem_range.mp hir, by simpa using hib, d, hd⟩

lemma mem_legal_inverse_moves {b : Nat} {m : Move}
    (h : m ∈ get_legal_inverse_moves b) :
    ∃ i, i < 64 ∧ b.testBit i = true ∧
      ∃ d, get_legal_inverse_move b (cellOf i) d = some m := by
  unfold get_legal_inverse_moves at h
  rcases List.mem_flatMap.mp h with ⟨i, hi, hm⟩
  rcases List.mem_filter.mp hi with ⟨hir, hib⟩
  rcases List.mem_filterMap.mp hm with ⟨d, _, hd⟩
  exact ⟨i, List.mem_range.mp hir, by simpa using hib, d, hd⟩

set_option maxRecDepth 16000 in
/-- On the cross, the cell jumped over lies on the cross whenever the origin
cell and the landing cell do (row and column convexity of the shape). -/
lemma skip_in_cross : ∀ i : Fin 64, ∀ d : Dir, full.testBit i.val = true →
    inbounds (d.mov (cellOf i.val)).2 = true →
    full.testBit (bitIdx (d.mov (cellOf i.val)).1) = true ∧
    full.testBit (bitIdx (d.mov (cellOf i.val)).2) = true := by decide

lemma cellOf_bit_full {b : Nat} (hb : b &&& full = b) {i : Nat}
    (hbit : b.testBit i = true) : bitIdx (cellOf i) = i := by
  have hfull := masked_testBit hb hbit
  have hlt := full_bit_lt hfull
  unfold bitIdx cellOf
  omega

/-- `Board::direction_mask(idx, dir)`: the three cells touched by a jump
from bit `idx` (the `usize` subtractions are only reached with `idx` large
enough at every call site). -/
def direction_mask (idx : Nat) (d : Dir) : Nat :=
  match d with
  | .east => (0b111 <<< idx) % 2 ^ 64
  | .west => (0b111 <<< (idx - 2)) % 2 ^ 64
  | .south => (0x010101 <<< idx) % 2 ^ 64
  | .north => (0x010101 <<< (idx - 16)) % 2 ^ 64

/-- `Board::toggle_mov_idx_unchecked(idx, dir)`: XOR the three-cell pattern. -/
def toggle_mov_idx_unchecked (b : Nat) (idx : Nat) (d : Dir) : Nat :=
  b ^^^ direction_mask idx d

/-- `Board::inverse()`: complement restricted to the playable cells. -/
def inverse (b : Nat) : Nat := (u64Mask ^^^ b) &&& full

lemma and_full_masked (x : Nat) : (x &&& full) &&& full = x &&& full := by
  rw [Nat.and_assoc, Nat.and_self]

lemma shiftRight_lt_64 {x : Nat} (s : Nat) (hx : x < 2 ^ 64) : x >>> s < 2 ^ 64 :=
  shiftRight_lt_two_pow s 64
    (Nat.lt_of_lt_of_le hx (Nat.pow_le_pow_right (by norm_num) (by omega)))

lemma masked_of_bit_impl {x : Nat} (hx : x < 2 ^ 64)
    (h : ∀ i, i < 64 → x.testBit i = true → full.testBit i = true) :
    x &&& full = x := by
  apply Nat.eq_of_testBit_eq
  intro i
  rcases Nat.lt_or_ge i 64 with hi | hi
  · rw [Nat.testBit_and]
    cases hxi : x.testBit i
    · rfl
    · simp [h i hi hxi]
  · simp [Nat.testBit_and,
      Nat.testBit_lt_two_pow (Nat.lt_of_lt_of_le hx
        (Nat.pow_le_pow_right (by norm_num) hi))]

set_option maxRecDepth 16000 in
lemma cross_transpose_fact : ∀ i : Fin 64,
    full.testBit (8 * (i.val % 8) + i.val / 8) = true →
    full.testBit i.val = true := by decide

set_option maxRecDepth 16000 in
lemma cross_rot180_fact : ∀ i : Fin 64, 9 + i.val < 64 →
    full.testBit (63 - (9 + i.val)) = true → full.testBit i.val = true := by decide

set_option maxRecDepth 16000 in
lemma cross_revcols_fact : ∀ i : Fin 64, 8 + i.val < 64 →
    full.testBit (8 * (7 - (8 + i.val) / 8) + (8 + i.val) % 8) = true →
    full.testBit i.val = true := by decide

set_option maxRecDepth 16000 in
lemma cross_revrows_fact : ∀ i : Fin 64, 1 + i.val < 64 →
    full.testBit (8 * (7 - (63 - (1 + i.val)) / 8) + (63 - (1 + i.val)) % 8) = true →
    full.testBit i.val = true := by decide

lemma transpose_masked {b : Nat} (hb : b &&& full = b) :
    transpose b &&& full = transpose b := by
  refine masked_of_bit_impl (transpose_lt (masked_lt hb)) ?_
  intro i hi hbit
  rw [testBit_transpose b i hi] at hbit
  exact cross_transpose_fact ⟨i, hi⟩ (masked_testBit hb hbit)

lemma rotate_180_masked {b : Nat} (hb : b &&& full = b) :
    rotate_180 b &&& full = rotate_180 b := by
  refine masked_of_bit_impl (shiftRight_lt_64 9 (reverseBits_lt b)) ?_
  intro i hi hbit
  rw [rotate_180, Nat.testBit_shiftRight, testBit_reverseBits] at hbit
  rcases Bool.and_eq_true_iff.mp hbit with ⟨hlt, hb2⟩
  exact cross_rot180_fact ⟨i, hi⟩ (of_decide_eq_true hlt) (masked_testBit hb hb2)

lemma reverse_cols_masked {b : Nat} (hb : b &&& full = b) :
    reverse_cols b &&& full = reverse_cols b := by
  refine masked_of_bit_impl (shiftRight_lt_64 8 (swapBytes_lt b)) ?_
  intro i hi hbit
  rw [reverse_cols, Nat.testBit_shiftRight, testBit_swapBytes] at hbit
  rcases Bool.and_eq_true_iff.mp hbit with ⟨hlt, hb2⟩
  exact cross_revcols_fact ⟨i, hi⟩ (of_decide_eq_true hlt) (masked_testBit hb hb2)

lemma reverse_rows_masked {b : Nat} (hb : b &&& full = b) :
    reverse_rows b &&& full = reverse_rows b := by
  refine masked_of_bit_impl (shiftRight_lt_64 1 (reverseBits_lt (swapBytes b))) ?_
  intro i hi hbit
  rw [reverse_rows, Nat.testBit_shiftRight, testBit_reverseBits] at hbit
  rcases Bool.and_eq_true_iff.mp hbit with ⟨hlt1, hb2⟩
  rw [testBit_swapBytes] at hb2
  rcases Bool.and_eq_true_iff.mp hb2 with ⟨hlt2, hb3⟩
  exact cross_revrows_fact ⟨i, hi⟩ (of_decide_eq_true hlt1) (masked_testBit hb hb3)

lemma mov_masked {b : Nat} (hb : b &&& full = b) {m : Move}
    (hm : m ∈ get_legal_moves b) : mov b m &&& full = mov b m := by
  rcases mem_legal_moves hm with ⟨i, hi, hbit, d, hglm⟩
  rcases glm_some_elim hglm with ⟨hmeq, hinb, _, _⟩
  subst hmeq
  exact set_masked (unset_masked _ (unset_masked _ hb)) hinb

lemma reverse_mov_masked {b : Nat} (hb : b &&& full = b) {m : Move}
    (hm : m ∈ get_legal_inverse_moves b) :
    reverse_mov b m &&& full = reverse_mov b m := by
  rcases mem_legal_inverse_moves hm with ⟨i, hi, hbit, d, hglm⟩
  rcases glim_some_elim hglm with ⟨hmeq, hinb, _, _⟩
  subst hmeq
  have hfull_i : full.testBit i = true := masked_testBit hb hbit
  have hsc := skip_in_cross ⟨i, hi⟩ d hfull_i hinb
  exact unset_masked _ (set_masked_bit (set_masked hb hinb) hsc.1)

lemma mask_sub_movable {b : Nat} {d : Dir} {i : Nat}
    (h : (mov_pattern_mask b d).testBit i = true) :
    (movable_positions d).testBit i = true := by
  unfold mov_pattern_mask at h
  simp only [Nat.testBit_and, Bool.and_eq_true] at h
  exact h.1.1.1

lemma rev_mask_sub_movable {b : Nat} {d : Dir} {i : Nat}
    (h : (rev_mov_pattern_mask b d).testBit i = true) :
    (movable_positions d).testBit i = true := by
  unfold rev_mov_pattern_mask at h
  simp only [Nat.testBit_and, Bool.and_eq_true] at h
  exact h.1.1.1

set_option maxRecDepth 16000 in
/-- Wherever a jump can start, all three touched cells stay on the cross. -/
lemma direction_mask_in_cross : ∀ i : Fin 64, ∀ d : Dir,
    (movable_positions d).testBit i.val = true →
    direction_mask i.val d &&& full = direction_mask i.val d := by decide

lemma movable_bit_lt {d : Dir} {idx : Nat}
    (h : (movable_positions d).testBit idx = true) : idx < 64 := by
  by_contra hc
  rw [Nat.testBit_lt_two_pow (Nat.lt_of_lt_of_le (movable_lt d)
    (Nat.pow_le_pow_right (by norm_num) (by omega)))] at h
  exact Bool.false_ne_true h

lemma toggle_masked {b : Nat} (hb : b &&& full = b) {d : Dir} {idx : Nat}
    (hdm : direction_mask idx d &&& full = direction_mask idx d) :
    toggle_mov_idx_unchecked b idx d &&& full = toggle_mov_idx_unchecked b idx d := by
  unfold toggle_mov_idx_unchecked
  rw [Nat.and_xor_distrib_right, hb, hdm]

/-- C8: every board operation, applied under its documented precondition,
keeps all bits inside the 33-cell mask: forward and reverse moves with a
legal move, `set`/`unset` at an in-bounds cell, `toggle_mov_idx_unchecked`
at an index taken from a pattern mask, all eight symmetry images,
`inverse`, and `from_compressed_repr` of any value. -/
theorem c8_mask_invariant (b : Nat) (hb64 : b < 2 ^ 64)
    (hb : b &&& (u64Mask ^^^ full) = 0) :
    (∀ m ∈ get_legal_moves b, mov b m &&& (u64Mask ^^^ full) = 0) ∧
    (∀ m ∈ get_legal_inverse_moves b, reverse_mov b m &&& (u64Mask ^^^ full) = 0) ∧
    (∀ p : Int × Int, inbounds p = true →
      set b p &&& (u64Mask ^^^ full) = 0 ∧ unset b p &&& (u64Mask ^^^ full) = 0) ∧
    (∀ (d : Dir) (idx : Nat), (mov_pattern_mask b d).testBit idx = true →
      toggle_mov_idx_unchecked b idx d &&& (u64Mask ^^^ full) = 0) ∧
    (∀ (d : Dir) (idx : Nat), (rev_mov_pattern_mask b d).testBit idx = true →
      toggle_mov_idx_unchecked b idx d &&& (u64Mask ^^^ full) = 0) ∧
    (∀ s ∈ symmetries b, s &&& (u64Mask ^^^ full) = 0) ∧
    inverse b &&& (u64Mask ^^^ full) = 0 ∧
    (∀ u : Nat, fromCompressedRepr u &&& (u64Mask ^^^ full) = 0) := by
  have hm : b &&& full = b := masked_of_compl hb64 hb
  refine ⟨?_, ?_, ?_, ?_, ?_, ?_, ?_, ?_⟩
  · intro m hmem
    exact compl_of_masked (mov_masked hm hmem)
  · intro m hmem
    exact compl_of_masked (reverse_mov_masked hm hmem)
  · intro p hp
    exact ⟨compl_of_masked (set_masked hm hp), compl_of_masked (unset_masked p hm)⟩
  · intro d idx hbit
    have hmv := mask_sub_movable hbit
    exact compl_of_masked (toggle_masked hm
      (direction_mask_in_cross ⟨idx, movable_bit_lt hmv⟩ d hmv))
  · intro d idx hbit
    have hmv := rev_mask_sub_movable hbit
    exact compl_of_masked (toggle_masked hm
      (direction_mask_in_cross ⟨idx, movable_bit_lt hmv⟩ d hmv))
  · intro s hs
    simp only [symmetries, List.mem_cons, List.not_mem_nil, or_false] at hs
    rcases hs with rfl | rfl | rfl | rfl | rfl | rfl | rfl | rfl
    · exact compl_of_masked hm
    · exact compl_of_masked (reverse_rows_masked (transpose_masked hm))
    · exact compl_of_masked (rotate_180_masked hm)
    · exact compl_of_masked (reverse_cols_masked (transpose_masked hm))
    · exact compl_of_masked (reverse_cols_masked hm)
    · exact compl_of_masked (reverse_rows_masked hm)
    · exact compl_of_masked (rotate_180_masked (transpose_masked hm))
    · exact compl_of_masked (transpose_masked hm)
  · exact compl_of_masked (and_full_masked _)
  · intro u
    exact compl_of_masked (fromCompressedRepr_masked u)

/-- C8 witness: the invariant checked at the start board for one legal move,
one cell operation, one toggle index, the symmetry images and the rest. -/
theorem c8_mask_invariant_witness :
    mov defaultBoard ⟨(1, 3), (2, 3), (3, 3)⟩ &&& (u64Mask ^^^ full) = 0 ∧
    (∀ s ∈ symmetries defaultBoard, s &&& (u64Mask ^^^ full) = 0) ∧
    inverse defaultBoard &&& (u64Mask ^^^ full) = 0 := by
  have h := c8_mask_invariant defaultBoard (by decide) (by decide)
  exact ⟨h.1 ⟨(1, 3), (2, 3), (3, 3)⟩ (by decide), h.2.2.2.2.2.1, h.2.2.2.2.2.2.1⟩

lemma countP_erase_key {α : Type} [DecidableEq α] (p : α → Bool) (k : α) :
    ∀ l : List α, l.Nodup → k ∈ l → p k = true →
      l.countP (fun a => p a && !(decide (a = k))) = l.countP p - 1 := by
  intro l
  induction l with
  | nil => simp
  | cons a t ih =>
    intro hnd hk hp
    rcases List.mem_cons.mp hk with rfl | hkt
    · have hknot : k ∉ t := (List.nodup_cons.mp hnd).1
      rw [List.countP_cons, List.countP_cons]
      have h2 : ∀ x ∈ t, (p x && !(decide (x = k))) = p x := by
        intro x hx
        have hxk : x ≠ k := fun h => hknot (h ▸ hx)
        simp [hxk]
      rw [List.countP_congr (fun x hx => by rw [h2 x hx])]
      simp [hp]
    · have hnd2 := (List.nodup_cons.mp hnd).2
      have hak : a ≠ k := fun h => (List.nodup_cons.mp hnd).1 (h ▸ hkt)
      rw [List.countP_cons, List.countP_cons, ih hnd2 hkt hp]
      have ha2 : (p a && !(decide (a = k))) = p a := by simp [hak]
      rw [ha2]
      have hpos : 0 < t.countP p :=
        List.countP_pos_iff.mpr ⟨k, hkt, by simp [hp]⟩
      omega

lemma countP_insert_key {α : Type} [DecidableEq α] (p : α → Bool) (k : α) :
    ∀ l : List α, l.Nodup → k ∈ l → p k = false →
      l.countP (fun a => p a || decide (a = k)) = l.countP p + 1 := by
  intro l
  induction l with
  | nil => simp
  | cons a t ih =>
    intro hnd hk hp
    rcases List.mem_cons.mp hk with rfl | hkt
    · have hknot : k ∉ t := (List.nodup_cons.mp hnd).1
      rw [List.countP_cons, List.countP_cons]
      have h2 : ∀ x ∈ t, (p x || decide (x = k)) = p x := by
        intro x hx
        have hxk : x ≠ k := fun h => hknot (h ▸ hx)
        simp [hxk]
      rw [List.countP_congr (fun x hx => by rw [h2 x hx])]
      simp [hp]
    · have hnd2 := (List.nodup_cons.mp hnd).2
      have hak : a ≠ k := fun h => (List.nodup_cons.mp hnd).1 (h ▸ hkt)
      rw [List.countP_cons, List.countP_cons, ih hnd2 hkt hp]
      have ha2 : (p a || decide (a = k)) = p a := by simp [hak]
      rw [ha2]
      omega

lemma count_balls_countP (x : Nat) :
    count_balls x = (List.range 64).countP (fun i => x.testBit i) := by
  unfold count_balls
  rw [List.countP_eq_length_filter]

lemma unset_bit_testBit {x k j : Nat} (hj : j < 64) :
    (x &&& (u64Mask ^^^ 1 <<< k)).testBit j = (x.testBit j && !(decide (j = k))) := by
  rw [Nat.testBit_and, compl_testBit _ hj, Nat.one_shiftLeft, Nat.testBit_two_pow]
  by_cases hjk : j = k
  · subst hjk
    simp
  · simp [hjk, Ne.symm hjk]

lemma set_bit_testBit {x k j : Nat} :
    (x ||| 1 <<< k).testBit j = (x.testBit j || decide (j = k)) := by
  rw [Nat.testBit_or, Nat.one_shiftLeft, Nat.testBit_two_pow]
  by_cases hjk : j = k
  · subst hjk
    simp
  · simp [hjk, Ne.symm hjk]

lemma count_balls_unset_bit {x k : Nat} (hk : k < 64) (hocc : x.testBit k = true) :
    count_balls (x &&& (u64Mask ^^^ 1 <<< k)) = count_balls x - 1 := by
  rw [count_balls_countP, count_balls_countP]
  rw [List.countP_congr
    (fun i hi => by rw [unset_bit_testBit (List.mem_range.mp hi)])]
  exact countP_erase_key _ k _ (List.nodup_range 64) (List.mem_range.mpr hk) hocc

lemma count_balls_set_bit {x k : Nat} (hk : k < 64) (hfree : x.testBit k = false) :
    count_balls (x ||| 1 <<< k) = count_balls x + 1 := by
  rw [count_balls_countP, count_balls_countP]
  rw [List.countP_congr (fun i hi => by rw [set_bit_testBit])]
  exact countP_insert_key _ k _ (List.nodup_range 64) (List.mem_range.mpr hk) hfree

lemma count_balls_two_le {x i j : Nat} (hi : i < 64) (hj : j < 64) (hij : i ≠ j)
    (hbi : x.testBit i = true) (hbj : x.testBit j = true) : 2 ≤ count_balls x := by
  rw [count_balls_countP]
  have hsub : [i, j] ⊆ List.range 64 := by
    intro a ha
    rcases List.mem_cons.mp ha with rfl | ha2
    · exact List.mem_range.mpr hi
    · rw [List.mem_singleton] at ha2
      subst ha2
      exact List.mem_range.mpr hj
  have hnd : ([i, j] : List Nat).Nodup := by simp [hij]
  have hle := (hnd.subperm hsub).countP_le (fun a => x.testBit a)
  have : ([i, j] : List Nat).countP (fun a => x.testBit a) = 2 := by
    simp [List.countP_cons, hbi, hbj]
  omega

lemma countP_range_invol (p q : Nat → Bool) (τ : Nat → Nat) (n : Nat)
    (hτ : ∀ i, i < n → τ i < n) (hinv : ∀ i, i < n → τ (τ i) = i)
    (hpq : ∀ i, i < n → p i = q (τ i)) :
    (List.range n).countP p = (List.range n).countP q := by
  have hperm : List.Perm ((List.range n).map τ) (List.range n) := by
    have hnd : ((List.range n).map τ).Nodup := by
      refine (List.nodup_range n).map_on ?_
      intro a ha b hb hab
      have ha2 := List.mem_range.mp ha
      have hb2 := List.mem_range.mp hb
      calc a = τ (τ a) := (hinv a ha2).symm
        _ = τ (τ b) := by rw [hab]
        _ = b := hinv b hb2
    have hsub : ((List.range n).map τ) ⊆ List.range n := by
      intro j hj
      rcases List.mem_map.mp hj with ⟨i, hi, rfl⟩
      exact List.mem_range.mpr (hτ i (List.mem_range.mp hi))
    exact (hnd.subperm hsub).perm_of_length_le (by simp)
  calc (List.range n).countP p
      = (List.range n).countP (fun i => q (τ i)) :=
        List.countP_congr (fun i hi => by rw [hpq i (List.mem_range.mp hi)])
    _ = ((List.range n).map τ).countP q := by
        rw [List.countP_map]
        rfl
    _ = (List.range n).countP q := hperm.countP_eq q

lemma masked_bit_high {x : Nat} (hx : x &&& full = x) {j : Nat} (hj : 53 ≤ j) :
    x.testBit j = false := by
  cases hb : x.testBit j
  · rfl
  · have hf := masked_testBit hx hb
    have hful : full.testBit j = false :=
      Nat.testBit_lt_two_pow (Nat.lt_of_lt_of_le full_lt
        (Nat.pow_le_pow_right (by norm_num) hj))
    rw [hful] at hf
    simp at hf

set_option maxRecDepth 2000 in
lemma col7_full_false : ∀ j : Fin 64, j.val % 8 = 7 → full.testBit j.val = false := by
  decide

lemma masked_col7 {x : Nat} (hx : x &&& full = x) {j : Nat} (hj : j % 8 = 7) :
    x.testBit j = false := by
  cases hb : x.testBit j
  · rfl
  · have hf := masked_testBit hx hb
    have hj64 := full_bit_lt hf
    have hful : full.testBit j = false := col7_full_false ⟨j, hj64⟩ hj
    rw [hful] at hf
    simp at hf

lemma count_balls_transpose (x : Nat) : count_balls (transpose x) = count_balls x := by
  rw [count_balls_countP, count_balls_countP]
  refine countP_range_invol _ _ (fun i => 8 * (i % 8) + i / 8) 64 ?_ ?_ ?_
  · intro i hi
    dsimp only
    omega
  · intro i hi
    dsimp only
    omega
  · intro i hi
    dsimp only
    exact testBit_transpose x i hi

lemma count_balls_rotate_180 {x : Nat} (hx : x &&& full = x) :
    count_balls (rotate_180 x) = count_balls x := by
  rw [count_balls_countP, count_balls_countP]
  refine countP_range_invol _ _ (fun i => if i < 55 then 54 - i else i) 64 ?_ ?_ ?_
  · intro i hi
    dsimp only
    split <;> omega
  · intro i hi
    dsimp only
    by_cases h : i < 55
    · rw [if_pos h, if_pos (by omega : 54 - i < 55)]
      omega
    · rw [if_neg h, if_neg h]
  · intro i hi
    dsimp only
    by_cases h : i < 55
    · rw [if_pos h, rotate_180, Nat.testBit_shiftRight, testBit_reverseBits,
        decide_eq_true (by omega : 9 + i < 64), Bool.true_and,
        (by omega : 63 - (9 + i) = 54 - i)]
    · rw [if_neg h, rotate_180, Nat.testBit_shiftRight, testBit_reverseBits,
        decide_eq_false (by omega : ¬ (9 + i < 64)), Bool.false_and,
        masked_bit_high hx (by omega : 53 ≤ i)]

lemma count_balls_reverse_cols {x : Nat} (hx : x &&& full = x) :
    count_balls (reverse_cols x) = count_balls x := by
  rw [count_balls_countP, count_balls_countP]
  refine countP_range_invol _ _
    (fun i => if i < 56 then 8 * (6 - i / 8) + i % 8 else i) 64 ?_ ?_ ?_
  · intro i hi
    dsimp only
    split <;> omega
  · intro i hi
    dsimp only
    by_cases h : i < 56
    · rw [if_pos h, if_pos (by omega : 8 * (6 - i / 8) + i % 8 < 56)]
      omega
    · rw [if_neg h, if_neg h]
  · intro i hi
    dsimp only
    by_cases h : i < 56
    · rw [if_pos h, reverse_cols, Nat.testBit_shiftRight, testBit_swapBytes,
        decide_eq_true (by omega : 8 + i < 64), Bool.true_and,
        (by omega : 8 * (7 - (8 + i) / 8) + (8 + i) % 8 = 8 * (6 - i / 8) + i % 8)]
    · rw [if_neg h, reverse_cols, Nat.testBit_shiftRight, testBit_swapBytes,
        decide_eq_false (by omega : ¬ (8 + i < 64)), Bool.false_and,
        masked_bit_high hx (by omega : 53 ≤ i)]

lemma count_balls_reverse_rows {x : Nat} (hx : x &&& full = x) :
    count_balls (reverse_rows x) = count_balls x := by
  rw [count_balls_countP, count_balls_countP]
  refine countP_range_invol _ _
    (fun i => if i % 8 ≤ 6 then 8 * (i / 8) + (6 - i % 8) else i) 64 ?_ ?_ ?_
  · intro i hi
    dsimp only
    split <;> omega
  · intro i hi
    dsimp only
    by_cases h : i % 8 ≤ 6
    · rw [if_pos h, if_pos (by omega : (8 * (i / 8) + (6 - i % 8)) % 8 ≤ 6)]
      omega
    · rw [if_neg h, if_neg h]
  · intro i hi
    dsimp only
    by_cases h : i % 8 ≤ 6
    · rw [if_pos h, reverse_rows, Nat.testBit_shiftRight, testBit_reverseBits,
        decide_eq_true (by omega : 1 + i < 64), Bool.true_and, testBit_swapBytes,
        decide_eq_true (by omega : 63 - (1 + i) < 64), Bool.true_and,
        (by omega : 8 * (7 - (63 - (1 + i)) / 8) + (63 - (1 + i)) % 8 =
          8 * (i / 8) + (6 - i % 8))]
    · rw [if_neg h, masked_col7 hx (by omega : i % 8 = 7)]
      by_cases h63 : i = 63
      · subst h63
        rw [reverse_rows, Nat.testBit_shiftRight, testBit_reverseBits,
          decide_eq_false (by omega : ¬ (1 + 63 < 64)), Bool.false_and]
      · rw [reverse_rows, Nat.testBit_shiftRight, testBit_reverseBits,
          decide_eq_true (by omega : 1 + i < 64), Bool.true_and, testBit_swapBytes,
          decide_eq_true (by omega : 63 - (1 + i) < 64), Bool.true_and,
          masked_col7 hx (by omega :
            (8 * (7 - (63 - (1 + i)) / 8) + (63 - (1 + i)) % 8) % 8 = 7)]

lemma count_balls_symmetries {b : Nat} (hb : b &&& full = b) :
    ∀ s ∈ symmetries b, count_balls s = count_balls b := by
  intro s hs
  have ht := transpose_masked hb
  simp only [symmetries, List.mem_cons, List.not_mem_nil, or_false] at hs
  rcases hs with rfl | rfl | rfl | rfl | rfl | rfl | rfl | rfl
  · rfl
  · rw [count_balls_reverse_rows ht, count_balls_transpose]
  · exact count_balls_rotate_180 hb
  · rw [count_balls_reverse_cols ht, count_balls_transpose]
  · exact count_balls_reverse_cols hb
  · exact count_balls_reverse_rows hb
  · rw [count_balls_rotate_180 ht, count_balls_transpose]
  · exact count_balls_transpose b

lemma symmetries_masked {b : Nat} (hb : b &&& full = b) :
    ∀ s ∈ symmetries b, s &&& full = s := by
  intro s hs
  have ht := transpose_masked hb
  simp only [symmetries, List.mem_cons, List.not_mem_nil, or_false] at hs
  rcases hs with rfl | rfl | rfl | rfl | rfl | rfl | rfl | rfl
  · exact hb
  · exact reverse_rows_masked ht
  · exact rotate_180_masked hb
  · exact reverse_cols_masked ht
  · exact reverse_cols_masked hb
  · exact reverse_rows_masked hb
  · exact rotate_180_masked ht
  · exact ht

lemma foldl_min_mem : ∀ (l : List Nat) (a : Nat),
    l.foldl (fun m x => if x < m then x else m) a ∈ a :: l := by
  intro l
  induction l with
  | nil =>
    intro a
    simp
  | cons x t ih =>
    intro a
    rw [List.foldl_cons]
    by_cases h : x < a
    · rw [if_pos h]
      rcases List.mem_cons.mp (ih x) with h1 | h1
      · rw [h1]
        simp
      · simp [h1]
    · rw [if_neg h]
      rcases List.mem_cons.mp (ih a) with h1 | h1
      · rw [h1]
        simp
      · simp [h1]

lemma normalize_mem (b : Nat) : normalize b ∈ symmetries b := by
  unfold normalize
  rcases List.mem_cons.mp (foldl_min_mem (symmetries b) b) with h1 | h1
  · rw [h1]
    simp [symmetries]
  · exact h1

lemma normalize_masked {b : Nat} (hb : b &&& full = b) :
    normalize b &&& full = normalize b :=
  symmetries_masked hb _ (normalize_mem b)

lemma count_balls_normalize {b : Nat} (hb : b &&& full = b) :
    count_balls (normalize b) = count_balls b :=
  count_balls_symmetries hb _ (normalize_mem b)

set_option maxRecDepth 16000 in
lemma jump_cells : ∀ i : Fin 64, ∀ d : Dir, full.testBit i.val = true →
    inbounds (d.mov (cellOf i.val)).2 = true →
    bitIdx ((d.mov (cellOf i.val)).1) < 64 ∧ bitIdx ((d.mov (cellOf i.val)).2) < 64 ∧
    bitIdx ((d.mov (cellOf i.val)).1) ≠ i.val ∧ bitIdx ((d.mov (cellOf i.val)).2) ≠ i.val ∧
    bitIdx ((d.mov (cellOf i.val)).1) ≠ bitIdx ((d.mov (cellOf i.val)).2) := by
  decide

lemma count_balls_mov {b : Nat} (hb : b &&& full = b) {m : Move}
    (hm : m ∈ get_legal_moves b) :
    count_balls (mov b m) = count_balls b - 1 ∧ 2 ≤ count_balls b := by
  rcases mem_legal_moves hm with ⟨i, hi, hbit, d, hglm⟩
  rcases glm_some_elim hglm with ⟨hmeq, hinb, hskip, htar⟩
  have hfull := masked_testBit hb hbit
  obtain ⟨hs64, ht64, hsne, htne, hst⟩ := jump_cells ⟨i, hi⟩ d hfull hinb
  have hpos : bitIdx (cellOf i) = i := cellOf_bit_full hb hbit
  unfold occupied at hskip htar
  subst hmeq
  have h1 : count_balls (b &&& (u64Mask ^^^ 1 <<< i)) = count_balls b - 1 :=
    count_balls_unset_bit hi hbit
  have hsk1 : (b &&& (u64Mask ^^^ 1 <<< i)).testBit
      (bitIdx ((d.mov (cellOf i)).1)) = true := by
    rw [unset_bit_testBit hs64, hskip, decide_eq_false hsne]
    rfl
  have h2 : count_balls ((b &&& (u64Mask ^^^ 1 <<< i)) &&&
      (u64Mask ^^^ 1 <<< bitIdx ((d.mov (cellOf i)).1))) =
      count_balls (b &&& (u64Mask ^^^ 1 <<< i)) - 1 :=
    count_balls_unset_bit hs64 hsk1
  have htg2 : ((b &&& (u64Mask ^^^ 1 <<< i)) &&&
      (u64Mask ^^^ 1 <<< bitIdx ((d.mov (cellOf i)).1))).testBit
      (bitIdx ((d.mov (cellOf i)).2)) = false := by
    rw [unset_bit_testBit ht64, unset_bit_testBit ht64, htar]
    rfl
  have h3 := count_balls_set_bit ht64 htg2
  have h2le : 2 ≤ count_balls b :=
    count_balls_two_le hi hs64 (Ne.symm hsne) hbit hskip
  refine ⟨?_, h2le⟩
  unfold mov unset set
  dsimp only
  rw [hpos, h3, h2, h1]
  omega

lemma succ_count {b : Nat} (hb : b &&& full = b) {m : Move}
    (hm : m ∈ get_legal_moves b) :
    count_balls (normalize (mov b m)) = count_balls b - 1 ∧ 2 ≤ count_balls b ∧
      normalize (mov b m) &&& full = normalize (mov b m) := by
  have hmm := mov_masked hb hm
  have hc := count_balls_mov hb hm
  refine ⟨?_, hc.2, normalize_masked hmm⟩
  rw [count_balls_normalize hmm]
  exact hc.1

/-- The initial `chances` map: `chances.insert(Board::solved(), 1.0)`. -/
def initCh : Nat → Option ℚ := fun x => if x = solved then some 1 else none

/-- `chances.insert(k, v)`. -/
def insertCh (ch : Nat → Option ℚ) (k : Nat) (v : ℚ) : Nat → Option ℚ :=
  fun x => if x = k then some v else ch x

/-- The inner accumulation loop of `calculate_p_random_chance_success`:
`p_move = 1.0 / legal_moves.len()`, and for each move the contribution is
`p_move * chances[normalize(mov)]` when the successor is feasible and
`p_move * 0.0` otherwise (`expect` modelled by `getD 0`; the map is total on
the keys read under the preconditions proved below). -/
def pSuccess (F : List Nat) (ch : Nat → Option ℚ) (b : Nat) : ℚ :=
  (get_legal_moves b).foldl
    (fun acc m =>
      acc + (if normalize (mov b m) ∈ F then
          (1 / ((get_legal_moves b).length : ℚ)) * ((ch (normalize (mov b m))).getD 0)
        else (1 / ((get_legal_moves b).length : ℚ)) * 0)) 0

/-- One pass of the `for constellation in feasible_with_i_pegs` loop. -/
def processLevel (F : List Nat) (ch : Nat → Option ℚ) (lvl : List Nat) :
    Nat → Option ℚ :=
  lvl.foldl (fun ch c => insertCh ch c (pSuccess F ch c)) ch

/-- The outer loop `for i in 2..=(Board::SLOTS - 1)` truncated after `k`
iterations. -/
def calcUpTo (F : List Nat) (k : Nat) : Nat → Option ℚ :=
  (List.range' 2 k).foldl
    (fun ch i => processLevel F ch (F.filter (fun c => count_balls c = i))) initCh

/-- `calculate_p_random_chance_success`: all 31 level passes (`i = 2.. 32`,
`Board::SLOTS = 33`). -/
def calculate_p_random_chance_success (F : List Nat) : Nat → Option ℚ :=
  calcUpTo F 31

lemma foldl_add_map {α : Type} (g : α → ℚ) : ∀ (l : List α) (a : ℚ),
    l.foldl (fun acc m => acc + g m) a = a + (l.map g).sum := by
  intro l
  induction l with
  | nil =>
    intro a
    simp
  | cons x t ih =>
    intro a
    rw [List.foldl_cons, List.map_cons, List.sum_cons, ih]
    ring

lemma pSuccess_eq_sum (F : List Nat) (ch : Nat → Option ℚ) (b : Nat) :
    pSuccess F ch b = ((get_legal_moves b).map (fun m =>
      if normalize (mov b m) ∈ F then
        (1 / ((get_legal_moves b).length : ℚ)) * ((ch (normalize (mov b m))).getD 0)
      else (1 / ((get_legal_moves b).length : ℚ)) * 0)).sum := by
  unfold pSuccess
  rw [foldl_add_map (fun m =>
      if normalize (mov b m) ∈ F then
        (1 / ((get_legal_moves b).length : ℚ)) * ((ch (normalize (mov b m))).getD 0)
      else (1 / ((get_legal_moves b).length : ℚ)) * 0), zero_add]

lemma insertCh_ne {ch : Nat → Option ℚ} {k : Nat} {v : ℚ} {x : Nat} (h : x ≠ k) :
    insertCh ch k v x = ch x := by
  unfold insertCh
  rw [if_neg h]

lemma processLevel_cons (F : List Nat) (ch : Nat → Option ℚ) (c : Nat)
    (rest : List Nat) :
    processLevel F ch (c :: rest) =
      processLevel F (insertCh ch c (pSuccess F ch c)) rest := rfl

lemma processLevel_not_mem {F : List Nat} :
    ∀ (lvl : List Nat) (ch : Nat → Option ℚ) (x : Nat), x ∉ lvl →
      processLevel F ch lvl x = ch x := by
  intro lvl
  induction lvl with
  | nil =>
    intro ch x _
    rfl
  | cons c rest ih =>
    intro ch x hx
    have hxc : x ≠ c := fun h => hx (by rw [h]; exact List.mem_cons_self c rest)
    have hxr : x ∉ rest := fun h => hx (List.mem_cons.mpr (Or.inr h))
    rw [processLevel_cons, ih _ x hxr]
    exact insertCh_ne hxc

lemma pSuccess_congr {F : List Nat} {ch1 ch2 : Nat → Option ℚ} {b : Nat}
    (h : ∀ m ∈ get_legal_moves b, normalize (mov b m) ∈ F →
      ch1 (normalize (mov b m)) = ch2 (normalize (mov b m))) :
    pSuccess F ch1 b = pSuccess F ch2 b := by
  rw [pSuccess_eq_sum, pSuccess_eq_sum]
  congr 1
  refine List.map_congr_left ?_
  intro m hm
  by_cases hmem : normalize (mov b m) ∈ F
  · rw [if_pos hmem, if_pos hmem, h m hm hmem]
  · rw [if_neg hmem, if_neg hmem]

lemma processLevel_value {F S : List Nat}
    (hread : ∀ ch1 ch2 : Nat → Option ℚ, (∀ x, x ∉ S → ch1 x = ch2 x) →
      ∀ c ∈ S, pSuccess F ch1 c = pSuccess F ch2 c) :
    ∀ (lvl : List Nat), lvl ⊆ S → lvl.Nodup →
      ∀ (ch : Nat → Option ℚ), ∀ b ∈ lvl,
        processLevel F ch lvl b = some (pSuccess F ch b) := by
  intro lvl
  induction lvl with
  | nil =>
    intro _ _ ch b hb
    exact absurd hb (List.not_mem_nil b)
  | cons c rest ih =>
    intro hsub hnd ch b hb
    rw [processLevel_cons]
    rcases List.mem_cons.mp hb with heq | hbr
    · subst heq
      have hcnot : b ∉ rest := (List.nodup_cons.mp hnd).1
      refine (processLevel_not_mem rest _ b hcnot).trans ?_
      show (if b = b then some (pSuccess F ch b) else ch b) = some (pSuccess F ch b)
      rw [if_pos rfl]
    · have hnd2 := (List.nodup_cons.mp hnd).2
      have hsub2 : rest ⊆ S := fun x hx => hsub (List.mem_cons.mpr (Or.inr hx))
      refine (ih hsub2 hnd2 (insertCh ch c (pSuccess F ch c)) b hbr).trans
        (congrArg some ?_)
      refine hread _ _ ?_ b (hsub (List.mem_cons.mpr (Or.inr hbr)))
      intro x hx
      exact insertCh_ne (fun hxc => hx (by rw [hxc]; exact hsub (List.mem_cons_self c rest)))

lemma calcUpTo_succ (F : List Nat) (k : Nat) :
    calcUpTo F (k + 1) = processLevel F (calcUpTo F k)
      (F.filter (fun c => count_balls c = 2 + k)) := by
  unfold calcUpTo
  rw [List.range'_concat, List.foldl_append, List.foldl_cons, List.foldl_nil,
    Nat.one_mul]

lemma calcUpTo_stable (F : List Nat) :
    ∀ (k2 k : Nat), k ≤ k2 → ∀ c, count_balls c < 2 + k →
      calcUpTo F k2 c = calcUpTo F k c := by
  intro k2
  induction k2 with
  | zero =>
    intro k hk c _
    have hk0 : k = 0 := by omega
    rw [hk0]
  | succ k3 ih =>
    intro k hk c hc
    by_cases hke : k = k3 + 1
    · rw [hke]
    · have hk3 : k ≤ k3 := by omega
      have hnm : c ∉ F.filter (fun x => count_balls x = 2 + k3) := by
        intro hmem
        rcases List.mem_filter.mp hmem with ⟨_, hcnt⟩
        have hcc : count_balls c = 2 + k3 := by simpa using hcnt
        omega
      rw [calcUpTo_succ, processLevel_not_mem _ _ c hnm]
      exact ih k hk3 c hc

lemma calcUpTo_solved (F : List Nat) : ∀ k, calcUpTo F k solved = some 1 := by
  intro k
  induction k with
  | zero =>
    show initCh solved = some 1
    unfold initCh
    rw [if_pos rfl]
  | succ k2 ih =>
    have hnm : solved ∉ F.filter (fun c => count_balls c = 2 + k2) := by
      intro hmem
      rcases List.mem_filter.mp hmem with ⟨_, hcnt⟩
      have h1 : count_balls solved = 2 + k2 := by simpa using hcnt
      have h2 : count_balls solved = 1 := by decide
      omega
    rw [calcUpTo_succ, processLevel_not_mem _ _ solved hnm]
    exact ih

/-- C3: on a duplicate-free feasible set of masked boards whose ball counts
lie in 1..32 and whose only one-ball member is the goal board, the map
returned by `calculate_p_random_chance_success` assigns 1 to `solved` and to
every other feasible board the average over its legal moves of the map value
of the normalized successor, counting successors outside the set as 0. -/
theorem c3_probability_recurrence (F : List Nat)
    (hnd : F.Nodup)
    (hmask : ∀ c ∈ F, c &&& full = c)
    (hone : ∀ c ∈ F, count_balls c = 1 → c = solved)
    (hcnt : ∀ c ∈ F, 1 ≤ count_balls c ∧ count_balls c ≤ 32) :
    calculate_p_random_chance_success F solved = some 1 ∧
    ∀ b ∈ F, b ≠ solved →
      calculate_p_random_chance_success F b =
        some (((get_legal_moves b).map (fun m =>
          (1 / ((get_legal_moves b).length : ℚ)) *
            (if normalize (mov b m) ∈ F then
              (calculate_p_random_chance_success F (normalize (mov b m))).getD 0
            else 0))).sum) := by
  constructor
  · exact calcUpTo_solved F 31
  · intro b hbF hbs
    have hmaskb := hmask b hbF
    have hcle : count_balls b ≤ 32 := (hcnt b hbF).2
    have hb2 : 2 ≤ count_balls b := by
      rcases hcnt b hbF with ⟨h1, _⟩
      rcases Nat.lt_or_ge (count_balls b) 2 with hlt | hge
      · have h11 : count_balls b = 1 := by omega
        exact absurd (hone b hbF h11) hbs
      · exact hge
    have hstable : calcUpTo F 31 b = calcUpTo F (count_balls b - 1) b :=
      calcUpTo_stable F 31 (count_balls b - 1) (by omega) b (by omega)
    have hsucc : calcUpTo F (count_balls b - 1) = processLevel F
        (calcUpTo F (count_balls b - 2))
        (F.filter (fun c => count_balls c = count_balls b)) := by
      have h1 : count_balls b - 1 = (count_balls b - 2) + 1 := by omega
      have h2 : 2 + (count_balls b - 2) = count_balls b := by omega
      rw [h1, calcUpTo_succ, h2]
    have hread : ∀ ch1 ch2 : Nat → Option ℚ,
        (∀ x, x ∉ F.filter (fun c => count_balls c = count_balls b) → ch1 x = ch2 x) →
        ∀ c ∈ F.filter (fun c => count_balls c = count_balls b),
          pSuccess F ch1 c = pSuccess F ch2 c := by
      intro ch1 ch2 hagree c hc
      rcases List.mem_filter.mp hc with ⟨hcF, hcj⟩
      have hcj2 : count_balls c = count_balls b := by simpa using hcj
      apply pSuccess_congr
      intro m hm hmF
      apply hagree
      intro hmem2
      rcases List.mem_filter.mp hmem2 with ⟨_, hcnt2⟩
      have h3 : count_balls (normalize (mov c m)) = count_balls b := by
        simpa using hcnt2
      obtain ⟨h4, h5, _⟩ := succ_count (hmask c hcF) hm
      omega
    have hlvlnd : (F.filter (fun c => count_balls c = count_balls b)).Nodup :=
      hnd.filter _
    have hbmem : b ∈ F.filter (fun c => count_balls c = count_balls b) :=
      List.mem_filter.mpr ⟨hbF, by simp⟩
    have hval := processLevel_value hread
      (F.filter (fun c => count_balls c = count_balls b)) (fun x hx => hx) hlvlnd
      (calcUpTo F (count_balls b - 2)) b hbmem
    have hfinal : calculate_p_random_chance_success F b =
        some (pSuccess F (calcUpTo F (count_balls b - 2)) b) := by
      show calcUpTo F 31 b = _
      rw [hstable, hsucc, hval]
    rw [hfinal]
    congr 1
    rw [pSuccess_eq_sum]
    congr 1
    refine List.map_congr_left ?_
    intro m hm
    obtain ⟨h4, h5, _⟩ := succ_count hmaskb hm
    by_cases hmem : normalize (mov b m) ∈ F
    · have hst2 : calculate_p_random_chance_success F (normalize (mov b m)) =
          calcUpTo F (count_balls b - 2) (normalize (mov b m)) := by
        show calcUpTo F 31 _ = _
        exact calcUpTo_stable F 31 (count_balls b - 2) (by omega) _ (by omega)
      rw [if_pos hmem, if_pos hmem, hst2]
    · rw [if_neg hmem, if_neg hmem, mul_zero]

/-- Witness for C3 on the two-board feasible set containing the goal board
and the two-peg board with pegs at (3,3) and (3,4). -/
theorem c3_probability_recurrence_witness :
    calculate_p_random_chance_success [solved, set solved (3, 4)] solved = some 1 ∧
    calculate_p_random_chance_success [solved, set solved (3, 4)] (set solved (3, 4)) =
      some (((get_legal_moves (set solved (3, 4))).map (fun m =>
        (1 / ((get_legal_moves (set solved (3, 4))).length : ℚ)) *
          (if normalize (mov (set solved (3, 4)) m) ∈ [solved, set solved (3, 4)] then
            (calculate_p_random_chance_success [solved, set solved (3, 4)]
              (normalize (mov (set solved (3, 4)) m))).getD 0
          else 0))).sum) := by
  have h := c3_probability_recurrence [solved, set solved (3, 4)]
    (by decide) (by decide) (by decide) (by decide)
  exact ⟨h.1, h.2 (set solved (3, 4)) (by decide) (by decide)⟩

end Solitaire
